import Mathlib

/-!
Verification of the distributed task queue (broker.py, models.py, worker.py).

Strings are modelled as `List Char`; queue elements are the serialized
task texts that the broker stores in Redis lists.  The Redis list
operations used by the broker (`lpush`, `blmove`, `lrem`, `rpoplpush`,
`keys`) are embedded as pure functions on an explicit store state,
with the list head playing the role of the Redis "left" end.

`json.dumps` / `json.loads` (Python standard library, used by
`Task.to_json` / `Task.from_json`) are embedded for the JSON fragment
the task record uses: strings, integers, booleans, null, arrays and
string-keyed objects.  Floating point numbers are outside the model.
-/

abbrev Str := List Char

/-- The JSON values exchanged through the queue.  Object fields keep
their insertion order, as Python dicts do.  Numbers are integers:
floats are outside the model. -/
inductive JsonValue : Type where
  | null : JsonValue
  | bool (b : Bool) : JsonValue
  | num (n : Int) : JsonValue
  | str (s : Str) : JsonValue
  | arr (elems : List JsonValue) : JsonValue
  | obj (fields : List (Str × JsonValue)) : JsonValue

/-- Lowercase hexadecimal digit, as produced by Python's json encoder. -/
def hexDigit (n : Nat) : Char :=
  if n < 10 then Char.ofNat (48 + n) else Char.ofNat (87 + n)

/-- Four lowercase hex digits of `n < 0x10000` (the `\uXXXX` payload). -/
def hex4 (n : Nat) : List Char :=
  [hexDigit (n / 4096 % 16), hexDigit (n / 256 % 16), hexDigit (n / 16 % 16), hexDigit (n % 16)]

/-- `json.dumps` escaping of one character with `ensure_ascii=True`
(the default used by `Task.to_json`): quote, backslash and the five
shorthand controls get two-character escapes, the remaining controls
and all non-ASCII characters become `\uXXXX` (with a surrogate pair
above U+FFFF), and printable ASCII passes through. -/
def escapeChar (c : Char) : List Char :=
  if c = '"' then ['\\', '"']
  else if c = '\\' then ['\\', '\\']
  else if c = '\n' then ['\\', 'n']
  else if c = '\r' then ['\\', 'r']
  else if c = '\t' then ['\\', 't']
  else if c = Char.ofNat 8 then ['\\', 'b']
  else if c = Char.ofNat 12 then ['\\', 'f']
  else if c.toNat < 32 ∨ 127 ≤ c.toNat then
    if c.toNat < 65536 then '\\' :: 'u' :: hex4 c.toNat
    else ('\\' :: 'u' :: hex4 (55296 + (c.toNat - 65536) / 1024)) ++
         ('\\' :: 'u' :: hex4 (56320 + (c.toNat - 65536) % 1024))
  else [c]

/-- Escape a whole string body (contents between the quotes). -/
def escapeList : Str → List Char
  | [] => []
  | c :: cs => escapeChar c ++ escapeList cs

/-- Decimal digits, most significant first; structural on a fuel
bound so that the definition evaluates by reduction. -/
def natDigitsAux : Nat → Nat → List Char
  | 0, _ => []
  | fuel + 1, n =>
    if n < 10 then [Char.ofNat (48 + n)]
    else natDigitsAux fuel (n / 10) ++ [Char.ofNat (48 + n % 10)]

/-- Decimal digits of a natural number, most significant first. -/
def natDigits (n : Nat) : List Char := natDigitsAux (n + 1) n

/-- Python `repr` of an int: decimal digits, `-` sign for negatives. -/
def intChars (n : Int) : List Char :=
  if n < 0 then '-' :: natDigits (-n).toNat else natDigits n.toNat

/-- The characters of the `null` literal. -/
def nullChars : List Char := ['n', 'u', 'l', 'l']

/-- The characters of the `true` literal. -/
def trueChars : List Char := ['t', 'r', 'u', 'e']

/-- The characters of the `false` literal. -/
def falseChars : List Char := ['f', 'a', 'l', 's', 'e']

mutual
/-- `json.dumps` with the default separators `", "` and `": "` and
`ensure_ascii=True`, restricted to the integer fragment. -/
def dumpsV : JsonValue → List Char
  | .null => nullChars
  | .bool true => trueChars
  | .bool false => falseChars
  | .num n => intChars n
  | .str s => '"' :: (escapeList s ++ ['"'])
  | .arr [] => ['[', ']']
  | .arr (x :: xs) => '[' :: (dumpsV x ++ dumpsArr xs ++ [']'])
  | .obj [] => ['\x7b', '\x7d']
  | .obj (f :: fs) => '\x7b' :: (dumpsField f ++ dumpsObj fs ++ ['\x7d'])

/-- Remaining array elements, each preceded by `", "`. -/
def dumpsArr : List JsonValue → List Char
  | [] => []
  | x :: xs => ',' :: ' ' :: (dumpsV x ++ dumpsArr xs)

/-- One object field: quoted key, `": "`, value. -/
def dumpsField : Str × JsonValue → List Char
  | (k, v) => '"' :: (escapeList k ++ ('"' :: ':' :: ' ' :: dumpsV v))

/-- Remaining object fields, each preceded by `", "`. -/
def dumpsObj : List (Str × JsonValue) → List Char
  | [] => []
  | f :: fs => ',' :: ' ' :: (dumpsField f ++ dumpsObj fs)
end

/-- JSON whitespace accepted by `json.loads`. -/
def isWsChar (c : Char) : Bool := c = ' ' || c = '\t' || c = '\n' || c = '\r'

/-- Drop leading JSON whitespace. -/
def skipWs : List Char → List Char
  | [] => []
  | c :: cs => if isWsChar c then skipWs cs else c :: cs

/-- Value of one hex digit; `json.loads` accepts both cases. -/
def hexVal (c : Char) : Option Nat :=
  if 48 ≤ c.toNat ∧ c.toNat ≤ 57 then some (c.toNat - 48)
  else if 97 ≤ c.toNat ∧ c.toNat ≤ 102 then some (c.toNat - 87)
  else if 65 ≤ c.toNat ∧ c.toNat ≤ 70 then some (c.toNat - 55)
  else none

/-- Read exactly four hex digits. -/
def readHex4 : List Char → Option (Nat × List Char)
  | a :: b :: c :: d :: cs =>
    match hexVal a, hexVal b, hexVal c, hexVal d with
    | some x, some y, some z, some w => some (((x * 16 + y) * 16 + z) * 16 + w, cs)
    | _, _, _, _ => none
  | _ => none

/-- Decode a `\uXXXX` escape, recombining a surrogate pair into one
scalar as `json.loads` does.  Python would keep a lone surrogate in
the resulting string; a Lean `Char` cannot hold one, so the model
rejects that case (it is unreachable from `dumpsV` output). -/
def decodeU (cs : List Char) : Option (Char × List Char) :=
  match readHex4 cs with
  | none => none
  | some (n, rest) =>
    if 55296 ≤ n ∧ n ≤ 56319 then
      match rest with
      | b :: u :: rest2 =>
        if b = '\\' ∧ u = 'u' then
          match readHex4 rest2 with
          | some (m, rest3) =>
            if 56320 ≤ m ∧ m ≤ 57343 then
              some (Char.ofNat (65536 + (n - 55296) * 1024 + (m - 56320)), rest3)
            else none
          | none => none
        else none
      | _ => none
    else if 56320 ≤ n ∧ n ≤ 57343 then none
    else some (Char.ofNat n, rest)

/-- Decode one backslash escape (the backslash is already consumed). -/
def decodeEscape : List Char → Option (Char × List Char)
  | '"' :: cs => some ('"', cs)
  | '\\' :: cs => some ('\\', cs)
  | '/' :: cs => some ('/', cs)
  | 'b' :: cs => some (Char.ofNat 8, cs)
  | 'f' :: cs => some (Char.ofNat 12, cs)
  | 'n' :: cs => some ('\n', cs)
  | 'r' :: cs => some ('\r', cs)
  | 't' :: cs => some ('\t', cs)
  | 'u' :: cs => decodeU cs
  | _ => none

/-- Parse a string body up to the closing quote.  Strict mode of
`json.loads`: raw control characters are rejected. -/
def parseStrBody : Nat → List Char → Option (Str × List Char)
  | 0, _ => none
  | _ + 1, [] => none
  | fuel + 1, c :: cs =>
    if c = '"' then some ([], cs)
    else if c = '\\' then
      match decodeEscape cs with
      | none => none
      | some (d, rest) =>
        match parseStrBody fuel rest with
        | none => none
        | some (s, rest2) => some (d :: s, rest2)
    else if c.toNat < 32 then none
    else
      match parseStrBody fuel cs with
      | none => none
      | some (s, rest2) => some (c :: s, rest2)

/-- Decimal digit test (`0`-`9`). -/
def isDigitChar (c : Char) : Bool := 48 ≤ c.toNat && c.toNat ≤ 57

/-- Accumulate decimal digits greedily. -/
def readDigits (acc : Nat) : List Char → Nat × List Char
  | [] => (acc, [])
  | c :: cs => if isDigitChar c then readDigits (acc * 10 + (c.toNat - 48)) cs else (acc, c :: cs)

/-- Unsigned integer part of a JSON number: `0`, or a nonzero leading
digit followed by more digits (JSON forbids leading zeros). -/
def parseNatPart : List Char → Option (Nat × List Char)
  | [] => none
  | c :: cs =>
    if c = '0' then some (0, cs)
    else if isDigitChar c then some (readDigits (c.toNat - 48) cs)
    else none

/-- Integer JSON number with optional sign.  Fraction and exponent
parts (floats) are outside the model. -/
def parseNum : List Char → Option (Int × List Char)
  | [] => none
  | c :: cs =>
    if c = '-' then
      match parseNatPart cs with
      | some (n, rest) => some (-(n : Int), rest)
      | none => none
    else
      match parseNatPart (c :: cs) with
      | some (n, rest) => some ((n : Int), rest)
      | none => none

/-- `d[k] = v` on an insertion-ordered dict, as Python builds objects:
an existing key keeps its position and gets the new value, a fresh key
goes to the end. -/
def dictInsert (fs : List (Str × JsonValue)) (k : Str) (v : JsonValue) : List (Str × JsonValue) :=
  if fs.any (fun p => p.1 == k) then fs.map (fun p => if p.1 == k then (k, v) else p)
  else fs ++ [(k, v)]

/-- Case split on the next character; `none` at end of input. -/
def withHead {A : Type} (f : Char → List Char → Option A) : List Char → Option A
  | [] => none
  | c :: r => f c r

/-- Sequence a parse result into a continuation (`none` propagates). -/
def obind {A B : Type} (o : Option A) (f : A → Option B) : Option B :=
  match o with
  | some a => f a
  | none => none

theorem withHead_cons {A : Type} (f : Char → List Char → Option A) (c : Char) (r : List Char) :
    withHead f (c :: r) = f c r := rfl

theorem obind_some {A B : Type} (a : A) (f : A → Option B) :
    obind (some a) f = f a := rfl

theorem obind_none {A B : Type} (f : A → Option B) :
    obind (none : Option A) f = none := rfl

/-- Parse an object key: a quoted string. -/
def parseKey : List Char → Option (Str × List Char)
  | [] => none
  | c :: rest => if c = '"' then parseStrBody rest.length rest else none

mutual
/-- Parse one JSON value at the given position (no leading whitespace
expected; callers skip it first).  Mirrors the if-elif chain of the
Python scanner: string, object, array, `null`, `true`, `false`, then
number. -/
def parseVal : Nat → List Char → Option (JsonValue × List Char)
  | 0, _ => none
  | fuel + 1, cs =>
    withHead (fun c cs2 =>
      if c = '"' then
        obind (parseStrBody cs2.length cs2) (fun p => some (.str p.1, p.2))
      else if c = '\x7b' then
        withHead (fun c2 rest2 =>
          if c2 = '\x7d' then some (.obj [], rest2)
          else
            obind (parseKey (c2 :: rest2)) (fun q =>
              withHead (fun c3 rest4 =>
                if c3 = ':' then
                  obind (parseVal fuel (skipWs rest4)) (fun p =>
                    parseObjRest fuel (dictInsert [] q.1 p.1) p.2)
                else none) (skipWs q.2))) (skipWs cs2)
      else if c = '[' then
        withHead (fun c2 rest2 =>
          if c2 = ']' then some (.arr [], rest2)
          else
            obind (parseVal fuel (c2 :: rest2)) (fun p =>
              parseArrRest fuel [p.1] p.2)) (skipWs cs2)
      else if c = 'n' then
        match cs2 with
        | 'u' :: 'l' :: 'l' :: rest => some (.null, rest)
        | _ => none
      else if c = 't' then
        match cs2 with
        | 'r' :: 'u' :: 'e' :: rest => some (.bool true, rest)
        | _ => none
      else if c = 'f' then
        match cs2 with
        | 'a' :: 'l' :: 's' :: 'e' :: rest => some (.bool false, rest)
        | _ => none
      else
        obind (parseNum (c :: cs2)) (fun p => some (.num p.1, p.2))) cs

/-- After one array element: `, element` repeated, then `]`. -/
def parseArrRest : Nat → List JsonValue → List Char → Option (JsonValue × List Char)
  | 0, _, _ => none
  | fuel + 1, acc, cs =>
    withHead (fun c rest =>
      if c = ',' then
        obind (parseVal fuel (skipWs rest)) (fun p =>
          parseArrRest fuel (acc ++ [p.1]) p.2)
      else if c = ']' then some (.arr acc, rest)
      else none) (skipWs cs)

/-- After one object field: `, "key": value` repeated, then a closing
brace. -/
def parseObjRest : Nat → List (Str × JsonValue) → List Char → Option (JsonValue × List Char)
  | 0, _, _ => none
  | fuel + 1, acc, cs =>
    withHead (fun c rest =>
      if c = ',' then
        obind (parseKey (skipWs rest)) (fun q =>
          withHead (fun c3 rest3 =>
            if c3 = ':' then
              obind (parseVal fuel (skipWs rest3)) (fun p =>
                parseObjRest fuel (dictInsert acc q.1 p.1) p.2)
            else none) (skipWs q.2))
      else if c = '\x7d' then some (.obj acc, rest)
      else none) (skipWs cs)
end

/-- `json.loads`: skip leading whitespace, parse one value, require
only whitespace after it.  The fuel `length + 1` never runs out: every
recursive call strictly consumes input first. -/
def loads (cs : List Char) : Option JsonValue :=
  match parseVal ((skipWs cs).length + 1) (skipWs cs) with
  | some (v, rest) => if skipWs rest = [] then some v else none
  | none => none

/-- The character following a serialized value must not extend a
number token; states where a parse of a dumped value stops. -/
def numSafe : List Char → Bool
  | [] => true
  | c :: _ => !isDigitChar c

/-! ### Round-trip of the textual encoding -/

theorem toNat_ofNat_valid {n : Nat} (h : Nat.isValidChar n) : (Char.ofNat n).toNat = n := by
  rw [Char.ofNat, dif_pos h]
  rfl

theorem char_toNat_lt (c : Char) : c.toNat < 1114112 := by
  rcases c.valid with h | ⟨_, h2⟩
  · exact Nat.lt_trans h (by norm_num)
  · exact h2

theorem hexVal_hexDigit (k : Nat) (hk : k < 16) : hexVal (hexDigit k) = some k := by
  interval_cases k <;> rfl

theorem readHex4_hex4 (n : Nat) (hn : n < 65536) (rest : List Char) :
    readHex4 (hex4 n ++ rest) = some (n, rest) := by
  have e : ∀ m : Nat, m % 16 < 16 := fun m => Nat.mod_lt _ (by norm_num)
  simp only [hex4, List.cons_append, List.nil_append, readHex4,
    hexVal_hexDigit _ (e _)]
  simp only [Option.some.injEq, Prod.mk.injEq]
  exact ⟨by omega, trivial⟩

theorem decodeU_bmp {n : Nat} (h1 : n < 65536) (h2 : n < 55296 ∨ 57343 < n) (rest : List Char) :
    decodeU (hex4 n ++ rest) = some (Char.ofNat n, rest) := by
  simp only [decodeU, readHex4_hex4 n h1]
  rw [if_neg (by omega), if_neg (by omega)]

theorem decodeU_pair (c : Char) (hc : 65536 ≤ c.toNat) (rest : List Char) :
    decodeU (hex4 (55296 + (c.toNat - 65536) / 1024) ++
      ('\\' :: 'u' :: (hex4 (56320 + (c.toNat - 65536) % 1024) ++ rest))) = some (c, rest) := by
  have hlt := char_toNat_lt c
  have hhi : 55296 + (c.toNat - 65536) / 1024 < 65536 := by omega
  rw [decodeU.eq_def]
  rw [readHex4_hex4 _ hhi]
  show (if 55296 ≤ 55296 + (c.toNat - 65536) / 1024 ∧ 55296 + (c.toNat - 65536) / 1024 ≤ 56319 then _ else _) = _
  rw [if_pos (by constructor <;> omega)]
  show (if ('\\' : Char) = '\\' ∧ ('u' : Char) = 'u' then _ else _) = _
  rw [if_pos ⟨rfl, rfl⟩]
  rw [readHex4_hex4 _ (show 56320 + (c.toNat - 65536) % 1024 < 65536 by omega)]
  show (if 56320 ≤ 56320 + (c.toNat - 65536) % 1024 ∧ 56320 + (c.toNat - 65536) % 1024 ≤ 57343 then _ else _) = _
  rw [if_pos (by constructor <;> omega)]
  have harith : 65536 + (55296 + (c.toNat - 65536) / 1024 - 55296) * 1024 +
      (56320 + (c.toNat - 65536) % 1024 - 56320) = c.toNat := by omega
  rw [harith, Char.ofNat_toNat]

/-- `decodeEscape` after a `u` defers to the unicode decoder. -/
theorem decodeEscape_u (X : List Char) (r : Option (Char × List Char)) (h : decodeU X = r) :
    decodeEscape ('u' :: X) = r := h

theorem escapeChar_step (c : Char) (fuel : Nat) (tail : List Char) :
    parseStrBody (fuel + 1) (escapeChar c ++ tail) =
      match parseStrBody fuel tail with
      | none => none
      | some (s, rest) => some (c :: s, rest) := by
  by_cases h1 : c = '"'
  · subst h1; rfl
  by_cases h2 : c = '\\'
  · subst h2; rfl
  by_cases h3 : c = '\n'
  · subst h3; rfl
  by_cases h4 : c = '\r'
  · subst h4; rfl
  by_cases h5 : c = '\t'
  · subst h5; rfl
  by_cases h6 : c = Char.ofNat 8
  · subst h6; rfl
  by_cases h7 : c = Char.ofNat 12
  · subst h7; rfl
  by_cases h8 : c.toNat < 32 ∨ 127 ≤ c.toNat
  · simp only [escapeChar, if_neg h1, if_neg h2, if_neg h3, if_neg h4, if_neg h5,
      if_neg h6, if_neg h7, if_pos h8]
    have hval : c.toNat < 55296 ∨ 57343 < c.toNat := by
      rcases c.valid with h | ⟨h', _⟩
      · exact Or.inl h
      · exact Or.inr h'
    by_cases h9 : c.toNat < 65536
    · rw [if_pos h9]
      simp only [List.cons_append]
      have hd : decodeEscape ('u' :: (hex4 c.toNat ++ tail)) = some (c, tail) :=
        decodeEscape_u _ _ (by rw [decodeU_bmp h9 hval, Char.ofNat_toNat])
      rw [parseStrBody, if_neg (by decide), if_pos rfl, hd]
    · rw [if_neg h9]
      simp only [List.cons_append, List.append_assoc]
      have hc : 65536 ≤ c.toNat := by omega
      have hd : decodeEscape ('u' :: (hex4 (55296 + (c.toNat - 65536) / 1024) ++
          ('\\' :: 'u' :: (hex4 (56320 + (c.toNat - 65536) % 1024) ++ tail)))) = some (c, tail) :=
        decodeEscape_u _ _ (decodeU_pair c hc tail)
      rw [parseStrBody, if_neg (by decide), if_pos rfl, hd]
  · simp only [escapeChar, if_neg h1, if_neg h2, if_neg h3, if_neg h4, if_neg h5,
      if_neg h6, if_neg h7, if_neg h8, List.cons_append, List.nil_append]
    rw [parseStrBody, if_neg h1, if_neg h2, if_neg (show ¬ c.toNat < 32 by omega)]

theorem parseStrBody_escapeList (s : Str) (fuel : Nat) (hf : s.length < fuel) (tail : List Char) :
    parseStrBody fuel (escapeList s ++ ('"' :: tail)) = some (s, tail) := by
  induction s generalizing fuel with
  | nil =>
    obtain ⟨f, rfl⟩ : ∃ f, fuel = f + 1 := ⟨fuel - 1, by omega⟩
    simp only [escapeList, List.nil_append]
    rw [parseStrBody, if_pos rfl]
  | cons c s ih =>
    obtain ⟨f, rfl⟩ : ∃ f, fuel = f + 1 := ⟨fuel - 1, by omega⟩
    simp only [escapeList, List.append_assoc]
    rw [escapeChar_step, ih f (by simp at hf; omega)]

theorem escapeChar_length_pos (c : Char) : 1 ≤ (escapeChar c).length := by
  simp only [escapeChar]
  split_ifs <;> simp [hex4]

theorem escapeList_length (s : Str) : s.length ≤ (escapeList s).length := by
  induction s with
  | nil => simp [escapeList]
  | cons c s ih =>
    simp only [escapeList, List.length_append, List.length_cons]
    have := escapeChar_length_pos c
    omega

theorem parseKey_str (s : Str) (tail : List Char) :
    parseKey ('"' :: (escapeList s ++ ('"' :: tail))) = some (s, tail) := by
  show parseStrBody (escapeList s ++ ('"' :: tail)).length (escapeList s ++ ('"' :: tail)) =
    some (s, tail)
  apply parseStrBody_escapeList
  simp only [List.length_append, List.length_cons]
  have := escapeList_length s
  omega

theorem natDigitsAux_irrel (fuel fuel' n : Nat) (h : n < fuel) (h' : n < fuel') :
    natDigitsAux fuel n = natDigitsAux fuel' n := by
  induction fuel generalizing fuel' n with
  | zero => omega
  | succ f ih =>
    obtain ⟨f', rfl⟩ : ∃ g, fuel' = g + 1 := ⟨fuel' - 1, by omega⟩
    by_cases h10 : n < 10
    · rw [natDigitsAux, natDigitsAux, if_pos h10, if_pos h10]
    · rw [natDigitsAux, natDigitsAux, if_neg h10, if_neg h10,
        ih f' (n / 10) (by omega) (by omega)]

theorem natDigits_unfold (n : Nat) :
    natDigits n = if n < 10 then [Char.ofNat (48 + n)]
      else natDigits (n / 10) ++ [Char.ofNat (48 + n % 10)] := by
  show natDigitsAux (n + 1) n = _
  by_cases h10 : n < 10
  · rw [natDigitsAux, if_pos h10, if_pos h10]
  · rw [natDigitsAux, if_neg h10, if_neg h10,
      natDigitsAux_irrel n (n / 10 + 1) (n / 10) (by omega) (by omega)]
    rfl

theorem digit_char_toNat {d : Nat} (h : d < 10) : (Char.ofNat (48 + d)).toNat = 48 + d :=
  toNat_ofNat_valid (Or.inl (by omega))

theorem digit_char_isDigit {d : Nat} (h : d < 10) : isDigitChar (Char.ofNat (48 + d)) = true := by
  simp only [isDigitChar, digit_char_toNat h, Bool.and_eq_true, decide_eq_true_eq]
  omega

theorem natDigits_good (n : Nat) :
    natDigits n ≠ [] ∧ (∀ c ∈ natDigits n, isDigitChar c = true) ∧
      ∀ acc, (natDigits n).foldl (fun a c => a * 10 + (c.toNat - 48)) acc =
        acc * 10 ^ (natDigits n).length + n := by
  induction n using Nat.strong_induction_on with
  | _ n ih =>
    by_cases h10 : n < 10
    · rw [natDigits_unfold, if_pos h10]
      refine ⟨by simp, ?_, ?_⟩
      · intro c hc
        simp at hc
        subst hc
        exact digit_char_isDigit h10
      · intro acc
        simp [List.foldl, digit_char_toNat h10]
    · rw [natDigits_unfold, if_neg h10]
      obtain ⟨hne, hdig, hfold⟩ := ih (n / 10) (by omega)
      refine ⟨by simp [hne], ?_, ?_⟩
      · intro c hc
        simp only [List.mem_append, List.mem_singleton] at hc
        rcases hc with hc | hc
        · exact hdig c hc
        · subst hc
          exact digit_char_isDigit (by omega)
      · intro acc
        rw [List.foldl_append, hfold acc]
        simp only [List.length_append, List.length_singleton, List.foldl]
        rw [digit_char_toNat (show n % 10 < 10 by omega)]
        rw [pow_succ]
        set K := 10 ^ (natDigits (n / 10)).length
        have hm : acc * (K * 10) = acc * K * 10 := by ring
        rw [hm]
        omega

/-! ### Heads of serialized values -/

theorem ne_of_toNat_ne {c d : Char} (h : c.toNat ≠ d.toNat) : ¬ c = d :=
  fun he => h (congrArg Char.toNat he)

theorem digit_range {c : Char} (h : isDigitChar c = true) : 48 ≤ c.toNat ∧ c.toNat ≤ 57 := by
  simpa [isDigitChar, Bool.and_eq_true, decide_eq_true_eq] using h

theorem digit_not_ws {c : Char} (h : isDigitChar c = true) : isWsChar c = false := by
  have hb := digit_range h
  have h1 : (' ' : Char).toNat = 32 := rfl
  have h2 : ('\t' : Char).toNat = 9 := rfl
  have h3 : ('\n' : Char).toNat = 10 := rfl
  have h4 : ('\r' : Char).toNat = 13 := rfl
  simp only [isWsChar, Bool.or_eq_false_iff, decide_eq_false_iff_not]
  exact ⟨⟨⟨ne_of_toNat_ne (by omega), ne_of_toNat_ne (by omega)⟩,
    ne_of_toNat_ne (by omega)⟩, ne_of_toNat_ne (by omega)⟩

/-- `skipWs` leaves a string whose head is not whitespace unchanged. -/
theorem skipWs_cons {c : Char} (h : isWsChar c = false) (cs : List Char) :
    skipWs (c :: cs) = c :: cs := by
  rw [skipWs, if_neg (by simp [h])]

theorem intChars_cons (n : Int) :
    ∃ d ds, intChars n = d :: ds ∧ (isDigitChar d = true ∨ d = '-') := by
  by_cases hneg : n < 0
  · exact ⟨'-', _, by rw [intChars, if_pos hneg], Or.inr rfl⟩
  · obtain ⟨d, ds, hcons⟩ : ∃ d ds, natDigits n.toNat = d :: ds := by
      cases hh : natDigits n.toNat with
      | nil => exact absurd hh (natDigits_good n.toNat).1
      | cons d ds => exact ⟨d, ds, rfl⟩
    refine ⟨d, ds, ?_, Or.inl ((natDigits_good n.toNat).2.1 d (by rw [hcons]; simp))⟩
    rw [intChars, if_neg hneg, hcons]

/-- Every serialized value starts with a character that is neither
whitespace nor a closing bracket. -/
theorem dumpsV_cons (v : JsonValue) :
    ∃ c cs, dumpsV v = c :: cs ∧ isWsChar c = false ∧ ¬ c = ']' := by
  cases v with
  | null => exact ⟨'n', _, rfl, by decide, by decide⟩
  | bool b => cases b with
    | true => exact ⟨'t', _, rfl, by decide, by decide⟩
    | false => exact ⟨'f', _, rfl, by decide, by decide⟩
  | num n =>
    obtain ⟨d, ds, hcons, hd⟩ := intChars_cons n
    refine ⟨d, ds, hcons, ?_, ?_⟩
    · rcases hd with hd | hd
      · exact digit_not_ws hd
      · subst hd; decide
    · rcases hd with hd | hd
      · have hb := digit_range hd
        exact ne_of_toNat_ne (by rw [show (']' : Char).toNat = 93 from rfl]; omega)
      · subst hd; decide
  | str s => exact ⟨'"', _, rfl, by decide, by decide⟩
  | arr xs => cases xs with
    | nil => exact ⟨'[', _, rfl, by decide, by decide⟩
    | cons x xs => exact ⟨'[', _, rfl, by decide, by decide⟩
  | obj fs => cases fs with
    | nil => exact ⟨'\x7b', _, rfl, by decide, by decide⟩
    | cons f fs => exact ⟨'\x7b', _, rfl, by decide, by decide⟩

theorem skipWs_dumpsV (v : JsonValue) (r : List Char) :
    skipWs (dumpsV v ++ r) = dumpsV v ++ r := by
  obtain ⟨c, cs, hv, hws, -⟩ := dumpsV_cons v
  rw [hv, List.cons_append, skipWs_cons hws]

theorem numSafe_dumpsArr (xs : List JsonValue) (rest : List Char) :
    numSafe (dumpsArr xs ++ (']' :: rest)) = true := by
  cases xs with
  | nil => rfl
  | cons x xs => rfl

theorem numSafe_dumpsObj (fs : List (Str × JsonValue)) (rest : List Char) :
    numSafe (dumpsObj fs ++ ('\x7d' :: rest)) = true := by
  cases fs with
  | nil => rfl
  | cons f fs => rfl

/-! ### Well-formed values: no duplicate object keys -/

/-- No string occurs twice. -/
def keysNodup : List Str → Bool
  | [] => true
  | k :: ks => !ks.contains k && keysNodup ks

mutual
/-- No object anywhere in the value has duplicate keys.  Real Python
dicts cannot: this is the well-formedness of the embedding. -/
def noDupV : JsonValue → Bool
  | .null => true
  | .bool _ => true
  | .num _ => true
  | .str _ => true
  | .arr xs => noDupL xs
  | .obj fs => keysNodup (fs.map Prod.fst) && noDupF fs

/-- All elements satisfy `noDupV`. -/
def noDupL : List JsonValue → Bool
  | [] => true
  | x :: xs => noDupV x && noDupL xs

/-- All field values satisfy `noDupV`. -/
def noDupF : List (Str × JsonValue) → Bool
  | [] => true
  | f :: fs => noDupV f.2 && noDupF fs
end

theorem keysNodup_iff (l : List Str) : keysNodup l = true ↔ l.Nodup := by
  induction l with
  | nil => simp [keysNodup]
  | cons k ks ih =>
    rw [keysNodup]
    simp only [Bool.and_eq_true, Bool.not_eq_true', List.contains_eq_any_beq,
      List.nodup_cons, ih, List.any_eq_false, beq_iff_eq]
    constructor
    · rintro ⟨hna, hnd⟩
      exact ⟨fun hm => by simpa using hna k hm, hnd⟩
    · rintro ⟨hna, hnd⟩
      exact ⟨fun a ha hak => hna (hak ▸ ha), hnd⟩

theorem natDigits_head_ne_zero (n : Nat) (hn : 1 ≤ n) (d : Char) (ds : List Char)
    (h : natDigits n = d :: ds) : ¬ d = '0' := by
  induction n using Nat.strong_induction_on generalizing d ds with
  | _ n ih =>
    by_cases h10 : n < 10
    · rw [natDigits_unfold, if_pos h10] at h
      obtain ⟨rfl, rfl⟩ : d = Char.ofNat (48 + n) ∧ ds = [] := by
        simpa [eq_comm] using h
      intro he
      have := congrArg Char.toNat he
      rw [digit_char_toNat h10, show Char.toNat '0' = 48 from rfl] at this
      omega
    · rw [natDigits_unfold, if_neg h10] at h
      obtain ⟨e, es, hcons⟩ : ∃ e es, natDigits (n / 10) = e :: es := by
        cases hh : natDigits (n / 10) with
        | nil => exact absurd hh (natDigits_good (n / 10)).1
        | cons e es => exact ⟨e, es, rfl⟩
      rw [hcons] at h
      simp only [List.cons_append, List.cons.injEq] at h
      obtain ⟨rfl, -⟩ := h
      exact ih (n / 10) (by omega) (by omega) e es hcons

theorem readDigits_spec (ds : List Char) (rest : List Char)
    (hds : ∀ c ∈ ds, isDigitChar c = true) (hrest : numSafe rest = true) (acc : Nat) :
    readDigits acc (ds ++ rest) = (ds.foldl (fun a c => a * 10 + (c.toNat - 48)) acc, rest) := by
  induction ds generalizing acc with
  | nil =>
    simp only [List.nil_append, List.foldl]
    cases rest with
    | nil => rfl
    | cons c cs =>
      have hc : isDigitChar c = false := by
        simpa [numSafe] using hrest
      rw [readDigits, if_neg (by simp [hc])]
  | cons d ds ih =>
    simp only [List.cons_append, List.foldl]
    rw [readDigits, if_pos (hds d (by simp))]
    exact ih (fun c hc => hds c (by simp [hc])) _

theorem parseNatPart_natDigits (n : Nat) (rest : List Char) (hrest : numSafe rest = true) :
    parseNatPart (natDigits n ++ rest) = some (n, rest) := by
  by_cases h0 : n = 0
  · subst h0
    rw [show natDigits 0 = ['0'] from rfl, List.cons_append, List.nil_append,
      parseNatPart, if_pos rfl]
  · obtain ⟨d, ds, hcons⟩ : ∃ d ds, natDigits n = d :: ds := by
      cases hh : natDigits n with
      | nil => exact absurd hh (natDigits_good n).1
      | cons d ds => exact ⟨d, ds, rfl⟩
    have hd0 := natDigits_head_ne_zero n (by omega) d ds hcons
    have hddig : isDigitChar d = true := (natDigits_good n).2.1 d (by rw [hcons]; simp)
    rw [hcons, List.cons_append, parseNatPart, if_neg hd0, if_pos hddig]
    rw [readDigits_spec ds rest (fun c hc => (natDigits_good n).2.1 c (by rw [hcons]; simp [hc])) hrest]
    have hfold := (natDigits_good n).2.2 0
    rw [hcons] at hfold
    simp only [List.foldl, Nat.zero_mul, Nat.zero_add] at hfold
    rw [hfold]

theorem parseNum_intChars (n : Int) (rest : List Char) (hrest : numSafe rest = true) :
    parseNum (intChars n ++ rest) = some (n, rest) := by
  by_cases hneg : n < 0
  · rw [intChars, if_pos hneg, List.cons_append, parseNum, if_pos rfl,
      parseNatPart_natDigits _ _ hrest]
    show some (-(((-n).toNat : Int)), rest) = some (n, rest)
    have he : -(((-n).toNat : Int)) = n := by omega
    rw [he]
  · rw [intChars, if_neg hneg]
    obtain ⟨d, ds, hcons⟩ : ∃ d ds, natDigits n.toNat = d :: ds := by
      cases hh : natDigits n.toNat with
      | nil => exact absurd hh (natDigits_good n.toNat).1
      | cons d ds => exact ⟨d, ds, rfl⟩
    have hddig : isDigitChar d = true := (natDigits_good n.toNat).2.1 d (by rw [hcons]; simp)
    have hdneg : ¬ d = '-' := by
      intro he
      rw [he] at hddig
      exact absurd hddig (by decide)
    rw [hcons, List.cons_append, parseNum, if_neg hdneg, ← List.cons_append, ← hcons,
      parseNatPart_natDigits _ _ hrest]
    show some ((n.toNat : Int), rest) = some (n, rest)
    have he : ((n.toNat : Int)) = n := by omega
    rw [he]

theorem dictInsert_fresh (fs : List (Str × JsonValue)) (k : Str) (v : JsonValue)
    (h : ¬ k ∈ fs.map Prod.fst) : dictInsert fs k v = fs ++ [(k, v)] := by
  rw [dictInsert, if_neg]
  intro hc
  simp only [List.any_eq_true, beq_iff_eq] at hc
  obtain ⟨p, hp, he⟩ := hc
  exact h (he ▸ List.mem_map_of_mem Prod.fst hp)

theorem parse_dumps (fuel : Nat) :
    (∀ v rest, (dumpsV v).length < fuel → numSafe rest = true → noDupV v = true →
      parseVal fuel (dumpsV v ++ rest) = some (v, rest)) ∧
    (∀ acc xs rest, (dumpsArr xs).length < fuel → noDupL xs = true →
      parseArrRest fuel acc (dumpsArr xs ++ (']' :: rest)) = some (.arr (acc ++ xs), rest)) ∧
    (∀ acc fs rest, (dumpsObj fs).length < fuel → noDupF fs = true →
      ((acc ++ fs).map Prod.fst).Nodup →
      parseObjRest fuel acc (dumpsObj fs ++ ('\x7d' :: rest)) = some (.obj (acc ++ fs), rest)) := by
  induction fuel using Nat.strong_induction_on with
  | _ fuel ih =>
    refine ⟨?_, ?_, ?_⟩
    · intro v rest hlen hsafe hnodup
      obtain ⟨F, rfl⟩ : ∃ F, fuel = F + 1 := ⟨fuel - 1, by omega⟩
      cases v with
      | null => exact rfl
      | bool b =>
        cases b with
        | true => exact rfl
        | false => exact rfl
      | num n =>
        obtain ⟨d, ds, hcons, hd⟩ := intChars_cons n
        have hdn : d.toNat = 45 ∨ (48 ≤ d.toNat ∧ d.toNat ≤ 57) := by
          rcases hd with hd | hd
          · exact Or.inr (digit_range hd)
          · subst hd; exact Or.inl rfl
        show parseVal (F + 1) (intChars n ++ rest) = some (.num n, rest)
        rw [hcons, List.cons_append, parseVal, withHead_cons,
          if_neg (ne_of_toNat_ne (by rw [show ('"' : Char).toNat = 34 from rfl]; omega)),
          if_neg (ne_of_toNat_ne (by rw [show ('\x7b' : Char).toNat = 123 from rfl]; omega)),
          if_neg (ne_of_toNat_ne (by rw [show ('[' : Char).toNat = 91 from rfl]; omega)),
          if_neg (ne_of_toNat_ne (by rw [show ('n' : Char).toNat = 110 from rfl]; omega)),
          if_neg (ne_of_toNat_ne (by rw [show ('t' : Char).toNat = 116 from rfl]; omega)),
          if_neg (ne_of_toNat_ne (by rw [show ('f' : Char).toNat = 102 from rfl]; omega)),
          ← List.cons_append, ← hcons, parseNum_intChars n rest hsafe, obind_some]
      | str s =>
        show parseVal (F + 1) (('"' :: (escapeList s ++ ['"'])) ++ rest) = some (.str s, rest)
        rw [List.cons_append, List.append_assoc,
          show (['"'] ++ rest : List Char) = '"' :: rest from rfl]
        have hb : s.length < (escapeList s ++ ('"' :: rest)).length := by
          simp only [List.length_append, List.length_cons]
          have := escapeList_length s
          omega
        rw [parseVal, withHead_cons, if_pos rfl, parseStrBody_escapeList s _ hb rest, obind_some]
      | arr xs =>
        cases xs with
        | nil => exact rfl
        | cons x xs =>
          have hlen' : (dumpsV (JsonValue.arr (x :: xs))).length =
              (dumpsV x).length + (dumpsArr xs).length + 2 := by
            show ('[' :: (dumpsV x ++ dumpsArr xs ++ [']'])).length = _
            simp only [List.length_cons, List.length_append, List.length_singleton, List.length_nil]
            try omega
          have hnx : noDupV x = true ∧ noDupL xs = true := by
            simpa only [show noDupV (JsonValue.arr (x :: xs)) = (noDupV x && noDupL xs) from rfl,
              Bool.and_eq_true] using hnodup
          show parseVal (F + 1) (('[' :: (dumpsV x ++ dumpsArr xs ++ [']'])) ++ rest) =
            some (.arr (x :: xs), rest)
          rw [List.cons_append, List.append_assoc, List.append_assoc,
            show ([']'] ++ rest : List Char) = ']' :: rest from rfl]
          rw [parseVal, withHead_cons, if_neg (by decide), if_neg (by decide), if_pos rfl]
          rw [skipWs_dumpsV x]
          obtain ⟨c, cs, hv, hws, hbr⟩ := dumpsV_cons x
          rw [hv, List.cons_append, withHead_cons, if_neg hbr, ← List.cons_append, ← hv]
          rw [(ih F (by omega)).1 x (dumpsArr xs ++ (']' :: rest))
            (by rw [hlen'] at hlen; omega) (numSafe_dumpsArr xs rest) hnx.1, obind_some]
          rw [(ih F (by omega)).2.1 [x] xs rest (by rw [hlen'] at hlen; omega) hnx.2]
          simp
      | obj fs =>
        cases fs with
        | nil => exact rfl
        | cons f fs =>
          obtain ⟨k, v⟩ := f
          have hlen' : (dumpsV (JsonValue.obj ((k, v) :: fs))).length =
              (escapeList k).length + (dumpsV v).length + (dumpsObj fs).length + 6 := by
            show ('\x7b' :: (dumpsField (k, v) ++ dumpsObj fs ++ ['\x7d'])).length = _
            rw [dumpsField]
            simp only [List.length_cons, List.length_append, List.length_singleton, List.length_nil]
            try omega
          have hnkv : keysNodup (((k, v) :: fs).map Prod.fst) = true ∧
              noDupV v = true ∧ noDupF fs = true := by
            have : noDupV (JsonValue.obj ((k, v) :: fs)) =
                (keysNodup (((k, v) :: fs).map Prod.fst) && (noDupV v && noDupF fs)) := rfl
            simpa only [this, Bool.and_eq_true, and_assoc] using hnodup
          show parseVal (F + 1) (('\x7b' :: (dumpsField (k, v) ++ dumpsObj fs ++ ['\x7d'])) ++ rest) =
            some (.obj ((k, v) :: fs), rest)
          rw [dumpsField, List.cons_append, List.append_assoc, List.append_assoc,
            show (['\x7d'] ++ rest : List Char) = '\x7d' :: rest from rfl]
          rw [parseVal, withHead_cons, if_neg (by decide), if_pos rfl]
          rw [List.cons_append, skipWs_cons (by decide), withHead_cons, if_neg (by decide)]
          rw [List.append_assoc,
            show (('"' :: ':' :: ' ' :: dumpsV v) ++ (dumpsObj fs ++ ('\x7d' :: rest)) : List Char) =
              '"' :: (':' :: ' ' :: (dumpsV v ++ (dumpsObj fs ++ ('\x7d' :: rest)))) from by simp]
          rw [parseKey_str k _, obind_some]
          rw [skipWs_cons (by decide), withHead_cons, if_pos rfl]
          rw [skipWs, if_pos (by decide), skipWs_dumpsV v]
          rw [(ih F (by omega)).1 v (dumpsObj fs ++ ('\x7d' :: rest))
            (by rw [hlen'] at hlen; omega) (numSafe_dumpsObj fs rest) hnkv.2.1, obind_some]
          rw [show dictInsert [] k v = [(k, v)] from rfl]
          rw [(ih F (by omega)).2.2 [(k, v)] fs rest (by rw [hlen'] at hlen; omega) hnkv.2.2
            (by simpa only [List.map_cons, List.map_append, List.map_nil, List.nil_append,
              List.singleton_append, ← keysNodup_iff] using hnkv.1)]
          simp
    · intro acc xs rest hlen hnodup
      obtain ⟨F, rfl⟩ : ∃ F, fuel = F + 1 := ⟨fuel - 1, by omega⟩
      cases xs with
      | nil =>
        show parseArrRest (F + 1) acc (']' :: rest) = some (.arr (acc ++ []), rest)
        rw [parseArrRest, skipWs_cons (by decide), withHead_cons, if_neg (by decide),
          if_pos rfl, List.append_nil]
      | cons x xs =>
        have hlen' : (dumpsArr (x :: xs)).length = (dumpsV x).length + (dumpsArr xs).length + 2 := by
          show (',' :: ' ' :: (dumpsV x ++ dumpsArr xs)).length = _
          simp only [List.length_cons, List.length_append, List.length_nil]
          try omega
        have hnx : noDupV x = true ∧ noDupL xs = true := by
          simpa only [show noDupL (x :: xs) = (noDupV x && noDupL xs) from rfl,
            Bool.and_eq_true] using hnodup
        show parseArrRest (F + 1) acc ((',' :: ' ' :: (dumpsV x ++ dumpsArr xs)) ++ (']' :: rest)) =
          some (.arr (acc ++ (x :: xs)), rest)
        rw [List.cons_append, List.cons_append, List.append_assoc]
        rw [parseArrRest, skipWs_cons (by decide), withHead_cons, if_pos rfl]
        rw [skipWs, if_pos (by decide), skipWs_dumpsV x]
        rw [(ih F (by omega)).1 x (dumpsArr xs ++ (']' :: rest))
          (by rw [hlen'] at hlen; omega) (numSafe_dumpsArr xs rest) hnx.1, obind_some]
        rw [(ih F (by omega)).2.1 (acc ++ [x]) xs rest (by rw [hlen'] at hlen; omega) hnx.2]
        simp
    · intro acc fs rest hlen hnodup hkeys
      obtain ⟨F, rfl⟩ : ∃ F, fuel = F + 1 := ⟨fuel - 1, by omega⟩
      cases fs with
      | nil =>
        show parseObjRest (F + 1) acc ('\x7d' :: rest) = some (.obj (acc ++ []), rest)
        rw [parseObjRest, skipWs_cons (by decide), withHead_cons, if_neg (by decide),
          if_pos rfl, List.append_nil]
      | cons f fs =>
        obtain ⟨k, v⟩ := f
        have hlen' : (dumpsObj ((k, v) :: fs)).length =
            (escapeList k).length + (dumpsV v).length + (dumpsObj fs).length + 6 := by
          show (',' :: ' ' :: (dumpsField (k, v) ++ dumpsObj fs)).length = _
          rw [dumpsField]
          simp only [List.length_cons, List.length_append, List.length_nil]
          try omega
        have hnkv : noDupV v = true ∧ noDupF fs = true := by
          simpa only [show noDupF ((k, v) :: fs) = (noDupV v && noDupF fs) from rfl,
            Bool.and_eq_true] using hnodup
        show parseObjRest (F + 1) acc
          ((',' :: ' ' :: (dumpsField (k, v) ++ dumpsObj fs)) ++ ('\x7d' :: rest)) =
          some (.obj (acc ++ ((k, v) :: fs)), rest)
        rw [dumpsField, List.cons_append, List.cons_append, List.append_assoc]
        rw [parseObjRest, skipWs_cons (by decide), withHead_cons, if_pos rfl]
        rw [skipWs, if_pos (by decide), List.cons_append, skipWs_cons (by decide)]
        rw [List.append_assoc,
          show (('"' :: ':' :: ' ' :: dumpsV v) ++ (dumpsObj fs ++ ('\x7d' :: rest)) : List Char) =
            '"' :: (':' :: ' ' :: (dumpsV v ++ (dumpsObj fs ++ ('\x7d' :: rest)))) from by simp]
        rw [parseKey_str k _, obind_some]
        rw [skipWs_cons (by decide), withHead_cons, if_pos rfl]
        rw [skipWs, if_pos (by decide), skipWs_dumpsV v]
        rw [(ih F (by omega)).1 v (dumpsObj fs ++ ('\x7d' :: rest))
          (by rw [hlen'] at hlen; omega) (numSafe_dumpsObj fs rest) hnkv.1, obind_some]
        have hfresh : ¬ k ∈ acc.map Prod.fst := by
          have hmap : ((acc ++ (k, v) :: fs).map Prod.fst) =
              acc.map Prod.fst ++ k :: fs.map Prod.fst := by
            simp
          rw [hmap] at hkeys
          intro hm
          exact (List.disjoint_of_nodup_append hkeys) hm (List.mem_cons_self k (fs.map Prod.fst))
        rw [dictInsert_fresh acc k v hfresh]
        rw [(ih F (by omega)).2.2 (acc ++ [(k, v)]) fs rest (by rw [hlen'] at hlen; omega) hnkv.2
          (by rw [List.append_assoc, List.singleton_append]; exact hkeys)]
        simp

/-- Parsing a dumped value back gives the value (well-formed inputs:
no duplicate object keys anywhere). -/
theorem loads_dumps (v : JsonValue) (h : noDupV v = true) : loads (dumpsV v) = some v := by
  have hskip : skipWs (dumpsV v) = dumpsV v := by
    have := skipWs_dumpsV v []
    simpa using this
  have hparse : parseVal ((dumpsV v).length + 1) (dumpsV v ++ []) = some (v, []) :=
    (parse_dumps ((dumpsV v).length + 1)).1 v [] (by omega) rfl h
  rw [List.append_nil] at hparse
  rw [loads, hskip, hparse]
  rfl

/-! ### The task record (models.py) -/

/-- `Task` from models.py: payload, id and status.  The dataclass
type hints (`Dict`, `str`, `str`) are annotations only — construction
does not check them — so each field can hold any JSON-representable
value. -/
structure Models.Task where
  payload : JsonValue
  task_id : JsonValue
  status : JsonValue

/-- The characters of `"payload"`. -/
def payloadKey : Str := ['p', 'a', 'y', 'l', 'o', 'a', 'd']

/-- The characters of `"task_id"`. -/
def taskIdKey : Str := ['t', 'a', 's', 'k', '_', 'i', 'd']

/-- The characters of `"status"`. -/
def statusKey : Str := ['s', 't', 'a', 't', 'u', 's']

/-- The characters of `"pending"`, the default status. -/
def pendingChars : Str := ['p', 'e', 'n', 'd', 'i', 'n', 'g']

/-- `Task.to_json`: `json.dumps(asdict(self))` — the three fields in
dataclass declaration order payload, task_id, status. -/
def Models.Task.to_json (t : Models.Task) : Str :=
  dumpsV (.obj [(payloadKey, t.payload), (taskIdKey, t.task_id), (statusKey, t.status)])

/-- Dict lookup `d[k]` (first matching key; parsed dicts have unique
keys by construction). -/
def getField (fs : List (Str × JsonValue)) (k : Str) : Option JsonValue :=
  match fs.find? (fun p => p.1 == k) with
  | some p => some p.2
  | none => none

/-- `Task.from_json`: `Task(**json.loads(data))`.  `none` models the
exception paths: invalid JSON, a non-object document (keyword
expansion needs a mapping), a missing `payload`, or a keyword the
dataclass does not accept.  Present fields are taken as-is, whatever
their value — the dataclass does not check its type hints.  `fresh`
stands for the `uuid4()` drawn when `task_id` is absent; a missing
`status` defaults to `"pending"`. -/
def Models.Task.from_json (fresh : Str) (data : Str) : Option Models.Task :=
  match loads data with
  | some (.obj fs) =>
    if fs.all (fun p => p.1 == payloadKey || p.1 == taskIdKey || p.1 == statusKey) then
      match getField fs payloadKey with
      | some pv =>
        some ⟨pv, (getField fs taskIdKey).getD (.str fresh),
          (getField fs statusKey).getD (.str pendingChars)⟩
      | none => none
    else none
  | _ => none

/-- No duplicate keys in any object held by the record's fields —
inherent for values originating from Python dicts, which cannot carry
a duplicate key. -/
def taskNoDup (t : Models.Task) : Bool :=
  noDupV t.payload && noDupV t.task_id && noDupV t.status

/-- A serialized task is never the empty string: it opens with the
object brace. -/
theorem to_json_ne_nil (t : Models.Task) : ¬ Models.Task.to_json t = [] :=
  fun h => List.cons_ne_nil _ _ h

theorem task_obj_noDup (t : Models.Task) (h : taskNoDup t = true) :
    noDupV (.obj [(payloadKey, t.payload), (taskIdKey, t.task_id),
      (statusKey, t.status)]) = true := by
  rw [taskNoDup, Bool.and_eq_true, Bool.and_eq_true] at h
  show (keysNodup [payloadKey, taskIdKey, statusKey] &&
    (noDupV t.payload && (noDupV t.task_id && (noDupV t.status && true)))) = true
  rw [h.1.1, h.1.2, h.2]
  rfl

/-- Serialization round-trip for the task record. -/
theorem from_json_to_json (t : Models.Task) (fresh : Str) (h : taskNoDup t = true) :
    Models.Task.from_json fresh (Models.Task.to_json t) = some t := by
  have hl : loads (Models.Task.to_json t) = some (.obj [(payloadKey, t.payload),
      (taskIdKey, t.task_id), (statusKey, t.status)]) :=
    loads_dumps _ (task_obj_noDup t h)
  rw [Models.Task.from_json, hl]
  rfl

/-! ### The broker store state (broker.py over Redis lists) -/

/-- The queue-related Redis state: the shared pending list and the
per-worker processing lists, keyed by worker id.  A Redis list key
exists iff the list is nonempty (well-formedness below); the Lean
list head plays the Redis "left" end. -/
structure QState where
  pending : List Str
  processing : List (Str × List Str)

/-- The list stored under worker `w`'s processing key, empty if the
key is absent. -/
def getQ (m : List (Str × List Str)) (w : Str) : List Str :=
  match m.find? (fun p => p.1 == w) with
  | some p => p.2
  | none => []

/-- Store list `l` under worker `w`'s key.  Redis removes a list key
when its list becomes empty. -/
def setQ (m : List (Str × List Str)) (w : Str) (l : List Str) : List (Str × List Str) :=
  if l.isEmpty then m.filter (fun p => !(p.1 == w))
  else if m.any (fun p => p.1 == w) then m.map (fun p => if p.1 == w then (w, l) else p)
  else m ++ [(w, l)]

/-- Well-formed store: one entry per worker key, no empty lists. -/
def WFProc (m : List (Str × List Str)) : Prop :=
  (m.map Prod.fst).Nodup ∧ ∀ p ∈ m, p.2 ≠ []

/-- Well-formed state. -/
def QState.WF (s : QState) : Prop := WFProc s.processing

/-- `push_task`: `LPUSH queue:pending task.to_json()`. -/
def push_task (s : QState) (t : Models.Task) : QState :=
  { s with pending := t.to_json :: s.pending }

/-- The `BLMOVE pending processing timeout src=RIGHT dest=LEFT` call
inside `fetch_task`: atomically move the tail of pending to the head
of the worker's processing list.  `none` is the timeout reply when
pending stays empty; the state is unchanged then. -/
def blmove (s : QState) (w : Str) : Option Str × QState :=
  match s.pending.getLast? with
  | none => (none, s)
  | some v =>
    (some v,
      { pending := s.pending.dropLast,
        processing := setQ s.processing w (v :: getQ s.processing w) })

/-- Result of `fetch_task`: the `None` timeout sentinel, a task, or a
raised deserialization error. -/
inductive FetchResult where
  | noTask
  | got (t : Models.Task)
  | fetchError

/-- `fetch_task`: blmove, then
`Task.from_json(task_data) if task_data else None` on the reply.
Python truthiness sends the empty-string entry down the `None` branch
exactly like the timeout reply: the entry has already moved into the
processing queue, yet the no-task sentinel is returned and nothing is
surfaced.  On a nonempty entry, a `from_json` exception propagates
after the move. -/
def fetch_task (s : QState) (w : Str) (fresh : Str) : FetchResult × QState :=
  match blmove s w with
  | (none, s2) => (.noTask, s2)
  | (some v, s2) =>
    ((if v = [] then .noTask
      else match Models.Task.from_json fresh v with
        | some t => .got t
        | none => .fetchError), s2)

/-- `complete_task`: `LREM processing 1 task.to_json()` — remove the
first occurrence of the serialized value, a no-op when absent. -/
def complete_task (s : QState) (w : Str) (t : Models.Task) : QState :=
  { s with processing := setQ s.processing w ((getQ s.processing w).erase t.to_json) }

/-- The `RPOPLPUSH processing pending` loop of
`requeue_orphaned_tasks`: one element per atomic step, counting moves. -/
def rpoplpushLoop : Nat → List Str → List Str → Nat → List Str × List Str × Nat
  | 0, proc, pend, n => (proc, pend, n)
  | fuel + 1, proc, pend, n =>
    match proc.getLast? with
    | none => (proc, pend, n)
    | some v => rpoplpushLoop fuel proc.dropLast (v :: pend) (n + 1)

/-- `requeue_orphaned_tasks`: drain the worker's processing list into
pending, one `RPOPLPUSH` at a time; returns the number moved. -/
def requeue_orphaned_tasks (s : QState) (w : Str) : Nat × QState :=
  let r := rpoplpushLoop (getQ s.processing w).length (getQ s.processing w) s.pending 0
  (r.2.2, { pending := r.2.1, processing := setQ s.processing w r.1 })

/-- One broker operation, as issued by clients, workers and the
master. -/
inductive QOp where
  | push (t : Models.Task)
  | fetch (w : Str) (fresh : Str)
  | complete (w : Str) (t : Models.Task)
  | requeue (w : Str)

/-- State effect of one operation. -/
def applyOp (s : QState) : QOp → QState
  | .push t => push_task s t
  | .fetch w fresh => (fetch_task s w fresh).2
  | .complete w t => complete_task s w t
  | .requeue w => (requeue_orphaned_tasks s w).2

/-- State after a sequence of operations. -/
def applyOps (s : QState) (ops : List QOp) : QState := ops.foldl applyOp s

/-- Does the operation push a task with serialized value `v`? -/
def isPushOf (v : Str) : QOp → Bool
  | .push t => t.to_json == v
  | _ => false

/-- Does the operation acknowledge a task with serialized value `v`? -/
def isCompleteOf (v : Str) : QOp → Bool
  | .complete _ t => t.to_json == v
  | _ => false

/-- Occurrences of the serialized value `v` in all processing queues. -/
def procCount (m : List (Str × List Str)) (v : Str) : Nat :=
  (m.map (fun p => p.2.count v)).sum

/-- Occurrences of the serialized value `v` across the whole store. -/
def totalCount (s : QState) (v : Str) : Nat :=
  s.pending.count v + procCount s.processing v

/-- In how many of the queues (pending, or one per worker) does `v`
occur? -/
def placesHolding (s : QState) (v : Str) : Nat :=
  (if v ∈ s.pending then 1 else 0) + (s.processing.filter (fun p => p.2.contains v)).length

/-! ### Store map lemmas -/

/-- No entry of the map uses key `w`. -/
def NoKey (m : List (Str × List Str)) (w : Str) : Prop := ∀ p ∈ m, ¬ p.1 = w

theorem noKey_of_any_false {m : List (Str × List Str)} {w : Str}
    (h : m.any (fun p => p.1 == w) = false) : NoKey m w := by
  intro p hp
  have := List.any_eq_false.mp h p hp
  simpa using this

theorem getQ_of_noKey {m : List (Str × List Str)} {w : Str} (h : NoKey m w) : getQ m w = [] := by
  rw [getQ, List.find?_eq_none.mpr (fun p hp => by simpa using h p hp)]

theorem filter_of_noKey {m : List (Str × List Str)} {w : Str} (h : NoKey m w) :
    m.filter (fun p => !(p.1 == w)) = m :=
  List.filter_eq_self.mpr (fun p hp => by simpa using h p hp)

theorem mapRepl_of_noKey {m : List (Str × List Str)} {w : Str} (l : List Str) (h : NoKey m w) :
    m.map (fun p => if p.1 == w then (w, l) else p) = m := by
  induction m with
  | nil => rfl
  | cons p m ih =>
    rw [List.map_cons, if_neg (by simpa using h p (by simp)),
      ih (fun q hq => h q (by simp [hq]))]

theorem noKey_of_nodup_cons {p : Str × List Str} {m : List (Str × List Str)} {w : Str}
    (hn : ((p :: m).map Prod.fst).Nodup) (he : p.1 = w) : NoKey m w := by
  intro q hq hqw
  rw [List.map_cons, List.nodup_cons] at hn
  exact hn.1 (he ▸ hqw ▸ List.mem_map_of_mem Prod.fst hq)

theorem nodup_keys_tail {p : Str × List Str} {m : List (Str × List Str)}
    (hn : ((p :: m).map Prod.fst).Nodup) : (m.map Prod.fst).Nodup := by
  rw [List.map_cons, List.nodup_cons] at hn
  exact hn.2

theorem procCount_cons (p : Str × List Str) (m : List (Str × List Str)) (v : Str) :
    procCount (p :: m) v = p.2.count v + procCount m v := by
  simp [procCount]

theorem getQ_cons_of_eq {p : Str × List Str} {m : List (Str × List Str)} {w : Str}
    (hp : p.1 = w) : getQ (p :: m) w = p.2 := by
  rw [getQ, List.find?_cons_of_pos _ (by simp [hp])]

theorem getQ_cons_of_ne {p : Str × List Str} {m : List (Str × List Str)} {w : Str}
    (hp : ¬ p.1 = w) : getQ (p :: m) w = getQ m w := by
  rw [getQ, List.find?_cons_of_neg _ (by simp [hp])]
  rfl

theorem procCount_filter (m : List (Str × List Str)) (w : Str) (v : Str)
    (hm : (m.map Prod.fst).Nodup) :
    procCount (m.filter (fun p => !(p.1 == w))) v + (getQ m w).count v = procCount m v := by
  induction m with
  | nil => simp [getQ, procCount]
  | cons p m ih =>
    by_cases hp : p.1 = w
    · rw [List.filter_cons, if_neg (by simp [hp]), filter_of_noKey (noKey_of_nodup_cons hm hp),
        getQ_cons_of_eq hp, procCount_cons]
      omega
    · rw [List.filter_cons, if_pos (by simp [hp]), getQ_cons_of_ne hp,
        procCount_cons, procCount_cons]
      have := ih (nodup_keys_tail hm)
      omega

theorem procCount_mapRepl (m : List (Str × List Str)) (w : Str) (l : List Str) (v : Str)
    (hm : (m.map Prod.fst).Nodup) (hc : m.any (fun p => p.1 == w) = true) :
    procCount (m.map (fun p => if p.1 == w then (w, l) else p)) v + (getQ m w).count v
      = procCount m v + l.count v := by
  induction m with
  | nil => simp at hc
  | cons p m ih =>
    by_cases hp : p.1 = w
    · rw [List.map_cons, if_pos (by simp [hp]),
        mapRepl_of_noKey l (noKey_of_nodup_cons hm hp), getQ_cons_of_eq hp,
        procCount_cons, procCount_cons,
        show ((w, l) : Str × List Str).2 = l from rfl]
      omega
    · have hc' : m.any (fun p => p.1 == w) = true := by
        rw [List.any_cons] at hc
        rcases Bool.or_eq_true_iff.mp hc with h | h
        · exact absurd (by simpa using h) hp
        · exact h
      rw [List.map_cons, if_neg (by simp [hp]), getQ_cons_of_ne hp,
        procCount_cons, procCount_cons]
      have := ih (nodup_keys_tail hm) hc'
      omega

theorem procCount_append_one (m : List (Str × List Str)) (w : Str) (l : List Str) (v : Str) :
    procCount (m ++ [(w, l)]) v = procCount m v + l.count v := by
  simp [procCount]

/-- Count-transfer equation for a store update. -/
theorem procCount_setQ (m : List (Str × List Str)) (w : Str) (l : List Str) (v : Str)
    (hm : (m.map Prod.fst).Nodup) :
    procCount (setQ m w l) v + (getQ m w).count v = procCount m v + l.count v := by
  rw [setQ]
  by_cases hl : l.isEmpty
  · rw [if_pos hl, List.isEmpty_iff.mp hl]
    simpa using procCount_filter m w v hm
  · rw [if_neg hl]
    by_cases hc : m.any (fun p => p.1 == w) = true
    · rw [if_pos hc]
      exact procCount_mapRepl m w l v hm hc
    · rw [if_neg hc, getQ_of_noKey (noKey_of_any_false (Bool.not_eq_true _ ▸ hc)),
        procCount_append_one]
      simp

theorem getQ_filter (m : List (Str × List Str)) (w : Str) :
    getQ (m.filter (fun p => !(p.1 == w))) w = [] := by
  rw [getQ, List.find?_eq_none.mpr]
  intro p hp
  have := (List.mem_filter.mp hp).2
  simpa using this

/-- Updating a worker's list then reading it back gives the list. -/
theorem getQ_setQ_self (m : List (Str × List Str)) (w : Str) (l : List Str)
    (hm : (m.map Prod.fst).Nodup) : getQ (setQ m w l) w = l := by
  rw [setQ]
  by_cases hl : l.isEmpty
  · rw [if_pos hl, List.isEmpty_iff.mp hl]
    exact getQ_filter m w
  · rw [if_neg hl]
    by_cases hc : m.any (fun p => p.1 == w) = true
    · rw [if_pos hc]
      induction m with
      | nil => simp at hc
      | cons p m ih =>
        by_cases hp : p.1 = w
        · rw [List.map_cons, if_pos (by simp [hp]), getQ_cons_of_eq rfl]
        · have hc' : m.any (fun p => p.1 == w) = true := by
            rw [List.any_cons] at hc
            rcases Bool.or_eq_true_iff.mp hc with h | h
            · exact absurd (by simpa using h) hp
            · exact h
          rw [List.map_cons, if_neg (by simp [hp]),
            getQ_cons_of_ne (by simpa using hp)]
          exact ih (nodup_keys_tail hm) hc'
    · rw [if_neg hc]
      have hnk : NoKey m w := noKey_of_any_false (Bool.not_eq_true _ ▸ hc)
      induction m with
      | nil => simp [getQ]
      | cons p m ih =>
        rw [List.cons_append, getQ_cons_of_ne (hnk p (by simp))]
        exact ih (nodup_keys_tail hm) (by
          rw [List.any_cons] at hc
          intro hc2
          exact hc (by simp [hc2]))
          (fun q hq => hnk q (by simp [hq]))

/-- Updating one worker's list does not affect another worker's. -/
theorem getQ_setQ_ne (m : List (Str × List Str)) (w w2 : Str) (l : List Str)
    (hne : ¬ w2 = w) : getQ (setQ m w l) w2 = getQ m w2 := by
  rw [setQ]
  by_cases hl : l.isEmpty
  · rw [if_pos hl]
    induction m with
    | nil => rfl
    | cons p m ih =>
      by_cases hp : p.1 = w
      · rw [List.filter_cons, if_neg (by simp [hp]), getQ_cons_of_ne (by rw [hp]; exact fun h => hne h.symm)]
        exact ih
      · by_cases hp2 : p.1 = w2
        · rw [List.filter_cons, if_pos (by simp [hp]), getQ_cons_of_eq hp2, getQ_cons_of_eq hp2]
        · rw [List.filter_cons, if_pos (by simp [hp]), getQ_cons_of_ne hp2, getQ_cons_of_ne hp2]
          exact ih
  · rw [if_neg hl]
    by_cases hc : m.any (fun p => p.1 == w) = true
    · rw [if_pos hc]
      induction m with
      | nil => rfl
      | cons p m ih =>
        by_cases hp : p.1 = w
        · rw [List.map_cons, if_pos (by simp [hp]),
            getQ_cons_of_ne (fun h => hne h.symm), getQ_cons_of_ne (by rw [hp]; exact fun h => hne h.symm)]
          by_cases hc' : m.any (fun p => p.1 == w) = true
          · exact ih hc'
          · rw [mapRepl_of_noKey l (noKey_of_any_false (Bool.not_eq_true _ ▸ hc'))]
        · rw [List.map_cons, if_neg (by simp [hp])]
          by_cases hp2 : p.1 = w2
          · rw [getQ_cons_of_eq hp2, getQ_cons_of_eq hp2]
          · rw [getQ_cons_of_ne hp2, getQ_cons_of_ne hp2]
            by_cases hc' : m.any (fun p => p.1 == w) = true
            · exact ih hc'
            · rw [mapRepl_of_noKey l (noKey_of_any_false (Bool.not_eq_true _ ▸ hc'))]
    · rw [if_neg hc]
      induction m with
      | nil =>
        rw [List.nil_append, getQ_cons_of_ne (fun h => hne h.symm)]
      | cons p m ih =>
        by_cases hp2 : p.1 = w2
        · rw [List.cons_append, getQ_cons_of_eq hp2, getQ_cons_of_eq hp2]
        · rw [List.cons_append, getQ_cons_of_ne hp2, getQ_cons_of_ne hp2]
          exact ih (by
            rw [List.any_cons] at hc
            intro hc2
            exact hc (by simp [hc2]))

theorem mapRepl_keys (m : List (Str × List Str)) (w : Str) (l : List Str) :
    (m.map (fun p => if p.1 == w then (w, l) else p)).map Prod.fst = m.map Prod.fst := by
  induction m with
  | nil => rfl
  | cons p m ih =>
    by_cases hp : p.1 = w
    · rw [List.map_cons, if_pos (by simp [hp]), List.map_cons, List.map_cons, ih]
      simp [hp]
    · rw [List.map_cons, if_neg (by simp [hp]), List.map_cons, List.map_cons, ih]

/-- Store updates preserve well-formedness. -/
theorem WFProc_setQ (m : List (Str × List Str)) (w : Str) (l : List Str)
    (hm : WFProc m) : WFProc (setQ m w l) := by
  obtain ⟨hnd, hne⟩ := hm
  rw [setQ]
  by_cases hl : l.isEmpty
  · rw [if_pos hl]
    refine ⟨?_, ?_⟩
    · exact hnd.sublist (List.Sublist.map Prod.fst (List.filter_sublist m))
    · intro p hp
      exact hne p (List.mem_filter.mp hp).1
  · rw [if_neg hl]
    by_cases hc : m.any (fun p => p.1 == w) = true
    · rw [if_pos hc]
      refine ⟨by rw [mapRepl_keys]; exact hnd, ?_⟩
      intro p hp
      obtain ⟨q, hq, hpq⟩ := List.mem_map.mp hp
      by_cases hqw : q.1 = w
      · rw [if_pos (by simp [hqw])] at hpq
        rw [← hpq]
        simpa using hl
      · rw [if_neg (by simp [hqw])] at hpq
        exact hpq ▸ hne q hq
    · rw [if_neg hc]
      have hnk : NoKey m w := noKey_of_any_false (Bool.not_eq_true _ ▸ hc)
      refine ⟨?_, ?_⟩
      · rw [List.map_append]
        refine List.Nodup.append hnd (by simp) ?_
        intro a ha hb
        obtain ⟨q, hq, hpq⟩ := List.mem_map.mp ha
        simp only [List.map_cons, List.map_nil, List.mem_singleton] at hb
        exact hnk q hq (by rw [hpq, hb])
      · intro p hp
        rcases List.mem_append.mp hp with h | h
        · exact hne p h
        · simp only [List.mem_singleton] at h
          rw [h]
          simpa using hl

/-! ### Per-operation counting -/

theorem totalCount_push (s : QState) (t : Models.Task) (v : Str) :
    totalCount (push_task s t) v
      = totalCount s v + (if t.to_json == v then 1 else 0) := by
  simp only [push_task, totalCount, List.count_cons]
  omega

theorem totalCount_blmove (s : QState) (w : Str) (v : Str) (hs : s.WF) :
    totalCount (blmove s w).2 v = totalCount s v := by
  rw [blmove]
  cases hlast : s.pending.getLast? with
  | none => rfl
  | some u =>
    have hdec : s.pending.dropLast ++ [u] = s.pending :=
      List.dropLast_append_getLast? u hlast
    simp only [totalCount]
    have hcnt : s.pending.count v = s.pending.dropLast.count v + (if u == v then 1 else 0) := by
      conv_lhs => rw [← hdec]
      simp [List.count_append, List.count_cons]
    have hpc := procCount_setQ s.processing w (u :: getQ s.processing w) v hs.1
    rw [List.count_cons] at hpc
    omega

theorem totalCount_fetch (s : QState) (w : Str) (fresh : Str) (v : Str) (hs : s.WF) :
    totalCount (fetch_task s w fresh).2 v = totalCount s v := by
  have htc := totalCount_blmove s w v hs
  cases hb : blmove s w with
  | mk r s2 =>
    rw [hb] at htc
    rw [fetch_task, hb]
    cases r with
    | none => exact htc
    | some u => exact htc

theorem count_erase_cases (g : List Str) (j v : Str) :
    (g.erase j).count v + (if j = v ∧ v ∈ g then 1 else 0) = g.count v := by
  by_cases hj : j = v
  · subst hj
    by_cases hv : j ∈ g
    · rw [if_pos ⟨rfl, hv⟩, List.count_erase_self]
      have : 1 ≤ g.count j := List.one_le_count_iff.mpr hv
      omega
    · rw [if_neg (by tauto), List.erase_of_not_mem hv]
      omega
  · rw [if_neg (by tauto), List.count_erase_of_ne (fun h => hj h.symm)]
    omega

theorem totalCount_complete (s : QState) (w : Str) (t : Models.Task) (v : Str) (hs : s.WF) :
    totalCount (complete_task s w t) v
      + (if t.to_json = v ∧ v ∈ getQ s.processing w then 1 else 0) = totalCount s v := by
  simp only [complete_task, totalCount]
  have hpc := procCount_setQ s.processing w ((getQ s.processing w).erase t.to_json) v hs.1
  have hce := count_erase_cases (getQ s.processing w) t.to_json v
  omega

/-- Closed form of the `RPOPLPUSH` loop: everything moves, in order. -/
theorem rpoplpushLoop_spec (l : List Str) : ∀ fuel pend n, l.length ≤ fuel →
    rpoplpushLoop fuel l pend n = ([], l ++ pend, n + l.length) := by
  induction l using List.reverseRecOn with
  | nil =>
    intro fuel pend n hf
    cases fuel with
    | zero => rfl
    | succ f => rfl
  | append_singleton l v ih =>
    intro fuel pend n hf
    obtain ⟨f, rfl⟩ : ∃ f, fuel = f + 1 := ⟨fuel - 1, by simp at hf; omega⟩
    rw [rpoplpushLoop, List.getLast?_concat, List.dropLast_concat]
    show rpoplpushLoop f l (v :: pend) (n + 1) = ([], l ++ [v] ++ pend, n + (l ++ [v]).length)
    rw [ih f (v :: pend) (n + 1) (by simp at hf; omega)]
    simp
    omega

/-- Closed form of the recovery sweep: the whole processing list moves
to the front of pending, keys-first order preserved, and the count of
moved entries is returned. -/
theorem requeue_spec (s : QState) (w : Str) :
    requeue_orphaned_tasks s w = ((getQ s.processing w).length,
      { pending := getQ s.processing w ++ s.pending,
        processing := setQ s.processing w [] }) := by
  rw [requeue_orphaned_tasks]
  rw [rpoplpushLoop_spec (getQ s.processing w) (getQ s.processing w).length s.pending 0
    (Nat.le_refl _)]
  simp

theorem totalCount_requeue (s : QState) (w : Str) (v : Str) (hs : s.WF) :
    totalCount (requeue_orphaned_tasks s w).2 v = totalCount s v := by
  rw [requeue_spec]
  simp only [totalCount, List.count_append]
  have hpc := procCount_setQ s.processing w [] v hs.1
  simp only [List.count_nil] at hpc
  omega

/-- Every operation preserves well-formedness of the store. -/
theorem WF_applyOp (s : QState) (o : QOp) (hs : s.WF) : (applyOp s o).WF := by
  cases o with
  | push t => exact hs
  | fetch w fresh =>
    rw [applyOp, fetch_task]
    cases hb : blmove s w with
    | mk r s2 =>
      have hs2 : s2.WF := by
        rw [blmove] at hb
        cases hlast : s.pending.getLast? with
        | none =>
          rw [hlast] at hb
          cases hb
          exact hs
        | some u =>
          rw [hlast] at hb
          cases hb
          exact WFProc_setQ s.processing w (u :: getQ s.processing w) hs
      cases r with
      | none => exact hs2
      | some u => exact hs2
  | complete w t =>
    exact WFProc_setQ s.processing w ((getQ s.processing w).erase t.to_json) hs
  | requeue w =>
    rw [applyOp, requeue_spec]
    exact WFProc_setQ s.processing w [] hs

theorem WF_applyOps (s : QState) (ops : List QOp) (hs : s.WF) : (applyOps s ops).WF := by
  induction ops generalizing s with
  | nil => exact hs
  | cons o ops ih => exact ih (applyOp s o) (WF_applyOp s o hs)

theorem totalCount_applyOp (s : QState) (o : QOp) (v : Str) (hs : s.WF)
    (hnp : isPushOf v o = false) (hnc : isCompleteOf v o = false) :
    totalCount (applyOp s o) v = totalCount s v := by
  cases o with
  | push t =>
    rw [applyOp, totalCount_push,
      show (t.to_json == v) = false from by simpa [isPushOf] using hnp]
    simp
  | fetch w fresh => exact totalCount_fetch s w fresh v hs
  | complete w t =>
    have hc := totalCount_complete s w t v hs
    have hne : ¬ t.to_json = v := by simpa [isCompleteOf] using hnc
    rw [if_neg (by tauto)] at hc
    simpa using hc
  | requeue w => exact totalCount_requeue s w v hs

theorem totalCount_applyOps (s : QState) (ops : List QOp) (v : Str) (hs : s.WF)
    (h : ops.all (fun o => !isPushOf v o && !isCompleteOf v o) = true) :
    totalCount (applyOps s ops) v = totalCount s v := by
  induction ops generalizing s with
  | nil => rfl
  | cons o ops ih =>
    rw [List.all_cons, Bool.and_eq_true, Bool.and_eq_true] at h
    have h1 : isPushOf v o = false := by simpa using h.1.1
    have h2 : isCompleteOf v o = false := by simpa using h.1.2
    show totalCount (applyOps (applyOp s o) ops) v = totalCount s v
    rw [ih (applyOp s o) (WF_applyOp s o hs) h.2, totalCount_applyOp s o v hs h1 h2]

theorem totalCount_zero_applyOp (s : QState) (o : QOp) (v : Str) (hs : s.WF)
    (h0 : totalCount s v = 0) (hnp : isPushOf v o = false) :
    totalCount (applyOp s o) v = 0 := by
  cases o with
  | push t =>
    rw [applyOp, totalCount_push,
      show (t.to_json == v) = false from by simpa [isPushOf] using hnp]
    simpa using h0
  | fetch w fresh =>
    show totalCount (fetch_task s w fresh).2 v = 0
    rw [totalCount_fetch s w fresh v hs]
    exact h0
  | complete w t =>
    have hc := totalCount_complete s w t v hs
    show totalCount (complete_task s w t) v = 0
    omega
  | requeue w => rw [applyOp, totalCount_requeue s w v hs]; exact h0

theorem totalCount_zero_applyOps (s : QState) (ops : List QOp) (v : Str) (hs : s.WF)
    (h0 : totalCount s v = 0) (h : ops.all (fun o => !isPushOf v o) = true) :
    totalCount (applyOps s ops) v = 0 := by
  induction ops generalizing s with
  | nil => exact h0
  | cons o ops ih =>
    rw [List.all_cons, Bool.and_eq_true] at h
    show totalCount (applyOps (applyOp s o) ops) v = 0
    exact ih (applyOp s o) (WF_applyOp s o hs)
      (totalCount_zero_applyOp s o v hs h0 (by simpa using h.1)) h.2

theorem contains_false_of_count_zero {l : List Str} {v : Str} (h : l.count v = 0) :
    l.contains v = false := by
  have hm : ¬ v ∈ l := by
    rw [← List.count_pos_iff]
    omega
  simp [List.contains, List.elem_eq_mem, hm]

theorem contains_true_of_count_pos {l : List Str} {v : Str} (h : 0 < l.count v) :
    l.contains v = true := by
  have hm : v ∈ l := List.count_pos_iff.mp h
  simp [List.contains, List.elem_eq_mem, hm]

theorem filter_contains_of_procCount_zero (m : List (Str × List Str)) (v : Str)
    (h : procCount m v = 0) : m.filter (fun p => p.2.contains v) = [] := by
  induction m with
  | nil => rfl
  | cons p m ih =>
    rw [procCount_cons] at h
    rw [List.filter_cons, if_neg (by rw [contains_false_of_count_zero (by omega)]; simp)]
    exact ih (by omega)

theorem filter_contains_of_procCount_one (m : List (Str × List Str)) (v : Str)
    (h : procCount m v = 1) : (m.filter (fun p => p.2.contains v)).length = 1 := by
  induction m with
  | nil => simp [procCount] at h
  | cons p m ih =>
    rw [procCount_cons] at h
    by_cases hp : p.2.count v = 0
    · rw [List.filter_cons, if_neg (by rw [contains_false_of_count_zero hp]; simp)]
      exact ih (by omega)
    · rw [List.filter_cons, if_pos (contains_true_of_count_pos (by omega))]
      rw [List.length_cons, filter_contains_of_procCount_zero m v (by omega)]
      rfl

/-- One unit of total count means the value sits in exactly one queue. -/
theorem placesHolding_of_totalCount_one (s : QState) (v : Str)
    (h : totalCount s v = 1) : placesHolding s v = 1 := by
  rw [totalCount] at h
  rw [placesHolding]
  by_cases hp : s.pending.count v = 0
  · rw [if_neg (by rw [← List.count_pos_iff]; omega),
      filter_contains_of_procCount_one s.processing v (by omega)]
  · have hp1 : s.pending.count v = 1 := by omega
    rw [if_pos (List.count_pos_iff.mp (by omega)),
      List.length_eq_zero.mpr (filter_contains_of_procCount_zero s.processing v (by omega))]

/-! ### Enqueue / fetch sequences (FIFO order) -/

/-- Enqueue a list of tasks in order (client.py submission loop). -/
def pushSeq (s : QState) (ts : List Models.Task) : QState := ts.foldl push_task s

theorem pushSeq_pending (s : QState) (ts : List Models.Task) :
    (pushSeq s ts).pending = (ts.map Models.Task.to_json).reverse ++ s.pending ∧
      (pushSeq s ts).processing = s.processing := by
  induction ts generalizing s with
  | nil => simp [pushSeq]
  | cons t ts ih =>
    have := ih (push_task s t)
    refine ⟨?_, ?_⟩
    · rw [show pushSeq s (t :: ts) = pushSeq (push_task s t) ts from rfl, this.1]
      simp [push_task]
    · rw [show pushSeq s (t :: ts) = pushSeq (push_task s t) ts from rfl, this.2]
      rfl

/-- A sequence of `fetch_task` calls; each element of `ws` is the
calling worker's id paired with the fresh-id oracle for that call. -/
def fetchSeq (s : QState) (ws : List (Str × Str)) : List FetchResult × QState :=
  match ws with
  | [] => ([], s)
  | wf :: ws =>
    (((fetch_task s wf.1 wf.2).1 :: (fetchSeq (fetch_task s wf.1 wf.2).2 ws).1),
      (fetchSeq (fetch_task s wf.1 wf.2).2 ws).2)

/-- One fetch on a nonempty pending queue moves and returns the task
at the retrieval end. -/
theorem fetch_task_step (s : QState) (w fresh : Str) (t : Models.Task) (l : List Str)
    (hp : s.pending = l ++ [t.to_json]) (hnd : taskNoDup t = true) :
    fetch_task s w fresh = (.got t,
      { pending := l,
        processing := setQ s.processing w (t.to_json :: getQ s.processing w) }) := by
  rw [fetch_task, blmove, hp, List.getLast?_concat, List.dropLast_concat]
  show ((if t.to_json = [] then FetchResult.noTask
      else match Models.Task.from_json fresh t.to_json with
        | some t2 => FetchResult.got t2
        | none => FetchResult.fetchError),
      ({ pending := l,
         processing := setQ s.processing w (t.to_json :: getQ s.processing w) } : QState)) = _
  rw [if_neg (to_json_ne_nil t), from_json_to_json t fresh hnd]

/-- Fetching as many times as there are tasks on the pending queue
returns them in enqueue order. -/
theorem fetchSeq_spec (L : List Models.Task) (ws : List (Str × Str)) (s : QState)
    (hpend : s.pending = (L.map Models.Task.to_json).reverse)
    (hlen : ws.length = L.length)
    (hnd : ∀ t ∈ L, taskNoDup t = true) :
    (fetchSeq s ws).1 = L.map FetchResult.got := by
  induction L generalizing s ws with
  | nil =>
    cases ws with
    | nil => rfl
    | cons wf ws => simp at hlen
  | cons t L ih =>
    cases ws with
    | nil => simp at hlen
    | cons wf ws =>
      have hp : s.pending = (L.map Models.Task.to_json).reverse ++ [t.to_json] := by
        rw [hpend]
        simp
      rw [fetchSeq, fetch_task_step s wf.1 wf.2 t _ hp (hnd t (by simp))]
      rw [ih ws _ rfl (by simpa using hlen) (fun u hu => hnd u (by simp [hu]))]
      rfl

/-! ### Worker enumeration (get_all_processing_workers) -/

/-- The characters of the fixed prefix `"queue:processing:"`. -/
def procKeyBase : Str :=
  ['q', 'u', 'e', 'u', 'e', ':', 'p', 'r', 'o', 'c', 'e', 's', 's', 'i', 'n', 'g', ':']

/-- `_processing_queue`: the worker's processing key name, fixed
prefix plus the identity. -/
def processing_queue_name (w : Str) : Str := procKeyBase ++ w

/-- Python `str.split(":")`. -/
def splitCols : List Char → List (List Char)
  | [] => [[]]
  | c :: cs =>
    if c = ':' then [] :: splitCols cs
    else
      match splitCols cs with
      | [] => [[c]]
      | seg :: segs => (c :: seg) :: segs

/-- `k.split(":")[-1]`: the last colon-separated component. -/
def extractWorkerId (k : Str) : Str := (splitCols k).getLastD []

/-- `get_all_processing_workers`: `KEYS queue:processing:*`, then take
the suffix after the last colon of each key name.  The other key
families of the system (`queue:pending`, `worker:heartbeat:...`) do
not match the pattern, and a Redis list key exists exactly while the
list is nonempty, so in a well-formed state the scan sees exactly the
processing key names. -/
def get_all_processing_workers (s : QState) : List Str :=
  (s.processing.map (fun p => processing_queue_name p.1)).map extractWorkerId

theorem splitCols_ne_nil (cs : List Char) : splitCols cs ≠ [] := by
  cases cs with
  | nil => simp [splitCols]
  | cons c cs =>
    rw [splitCols]
    by_cases hc : c = ':'
    · rw [if_pos hc]
      simp
    · rw [if_neg hc]
      cases splitCols cs with
      | nil => simp
      | cons seg segs => simp

theorem getLastD_indep {α : Type} (l : List α) (h : l ≠ []) (d d2 : α) :
    l.getLastD d = l.getLastD d2 := by
  rw [List.getLastD_eq_getLast?, List.getLastD_eq_getLast?]
  cases hl : l.getLast? with
  | none => exact absurd (List.getLast?_eq_none_iff.mp hl) h
  | some x => rfl

theorem splitCols_no_colon (w : List Char) (h : ∀ c ∈ w, ¬ c = ':') : splitCols w = [w] := by
  induction w with
  | nil => rfl
  | cons c cs ih =>
    rw [splitCols, if_neg (h c (by simp)), ih (fun d hd => h d (by simp [hd]))]

theorem splitCols_append_colon (xs ys : List Char) :
    (splitCols (xs ++ ':' :: ys)).getLastD [] = (splitCols ys).getLastD [] ∧
      2 ≤ (splitCols (xs ++ ':' :: ys)).length := by
  induction xs with
  | nil =>
    rw [List.nil_append, splitCols, if_pos rfl]
    refine ⟨by rw [List.getLastD_cons], ?_⟩
    have := List.length_pos.mpr (splitCols_ne_nil ys)
    simp
    omega
  | cons c xs ih =>
    rw [List.cons_append, splitCols]
    by_cases hc : c = ':'
    · rw [if_pos hc]
      refine ⟨?_, ?_⟩
      · rw [List.getLastD_cons]
        exact getLastD_indep _ (splitCols_ne_nil _) _ _ |>.trans ih.1 |>.trans rfl
      · have := List.length_pos.mpr (splitCols_ne_nil (xs ++ ':' :: ys))
        simp
        omega
    · rw [if_neg hc]
      cases hsp : splitCols (xs ++ ':' :: ys) with
      | nil => exact absurd hsp (splitCols_ne_nil _)
      | cons seg segs =>
        have hih := ih
        rw [hsp] at hih
        have hsegs : segs ≠ [] := by
          have := hih.2
          simp at this
          intro he
          rw [he] at this
          simp at this
        refine ⟨?_, ?_⟩
        · rw [← hih.1, List.getLastD_cons, List.getLastD_cons]
          exact getLastD_indep segs hsegs _ _
        · have := List.length_pos.mpr hsegs
          simp
          omega

/-- Key-name extraction recovers the identity exactly for colon-free
worker ids. -/
theorem extract_processing_name (w : Str) (h : ∀ c ∈ w, ¬ c = ':') :
    extractWorkerId (processing_queue_name w) = w := by
  have hsplit : processing_queue_name w =
      ['q', 'u', 'e', 'u', 'e', ':', 'p', 'r', 'o', 'c', 'e', 's', 's', 'i', 'n', 'g'] ++
        ':' :: w := rfl
  rw [extractWorkerId, hsplit, (splitCols_append_colon _ w).1, splitCols_no_colon w h]
  rfl

/-- A worker key is present in a well-formed store iff its queue reads
back nonempty. -/
theorem mem_keys_iff_getQ_ne (m : List (Str × List Str)) (w : Str)
    (hne : ∀ p ∈ m, p.2 ≠ []) : w ∈ m.map Prod.fst ↔ getQ m w ≠ [] := by
  induction m with
  | nil => simp [getQ]
  | cons p m ih =>
    by_cases hp : p.1 = w
    · rw [getQ_cons_of_eq hp]
      simp only [List.map_cons, List.mem_cons]
      exact ⟨fun _ => hne p (by simp), fun _ => Or.inl hp.symm⟩
    · rw [getQ_cons_of_ne hp]
      simp only [List.map_cons, List.mem_cons]
      rw [← ih (fun q hq => hne q (by simp [hq]))]
      constructor
      · rintro (h | h)
        · exact absurd h.symm hp
        · exact h
      · exact fun h => Or.inr h

/-! ### The heartbeat loop (worker.py) -/

/-- `_heartbeat_loop` of worker.py, over a list of tick outcomes:
`true` means `set_heartbeat` returned normally, `false` means it
raised a (transient) store error.  The loop body has no exception
handler, so a raising tick propagates: the loop ends (`true` in the
second component) and no further heartbeat is issued.  The first
component counts the heartbeats actually issued. -/
def heartbeatRun : List Bool → Nat × Bool
  | [] => (0, false)
  | ok :: rest =>
    if ok then ((heartbeatRun rest).1 + 1, (heartbeatRun rest).2)
    else (0, true)

theorem getQ_eq_of_mem {w : Str} : ∀ (m : List (Str × List Str)) (p : Str × List Str),
    (m.map Prod.fst).Nodup → p ∈ m → p.1 = w → getQ m w = p.2 := by
  intro m
  induction m with
  | nil =>
    intro p _ hp
    simp at hp
  | cons q m ih =>
    intro p hnd hp hpw
    rcases List.mem_cons.mp hp with h | h
    · rw [h] at hpw ⊢
      rw [getQ_cons_of_eq hpw]
    · by_cases hqw : q.1 = w
      · exact absurd hpw (noKey_of_nodup_cons hnd hqw p h)
      · rw [getQ_cons_of_ne hqw]
        exact ih p (nodup_keys_tail hnd) h hpw

theorem any_of_getQ_ne (m : List (Str × List Str)) (w : Str) (h : getQ m w ≠ []) :
    m.any (fun p => p.1 == w) = true := by
  induction m with
  | nil => simp [getQ] at h
  | cons p m ih =>
    by_cases hp : p.1 = w
    · simp [List.any_cons, hp]
    · rw [getQ_cons_of_ne hp] at h
      simp [List.any_cons, ih h]

theorem mapRepl_getQ (w : Str) : ∀ (m : List (Str × List Str)) (l : List Str),
    (m.map Prod.fst).Nodup → getQ m w = l →
    m.map (fun p => if p.1 == w then (w, l) else p) = m := by
  intro m
  induction m with
  | nil => intro l _ _; rfl
  | cons q m ih =>
    intro l hnd hl
    by_cases hqw : q.1 = w
    · rw [getQ_cons_of_eq hqw] at hl
      rw [List.map_cons, if_pos (by simp [hqw]),
        mapRepl_of_noKey l (noKey_of_nodup_cons hnd hqw), ← hl]
      rw [show ((w, q.2) : Str × List Str) = q from by rw [← hqw]]
    · rw [getQ_cons_of_ne hqw] at hl
      rw [List.map_cons, if_neg (by simp [hqw]), ih l (nodup_keys_tail hnd) hl]

/-- Writing back the list that is already stored changes nothing. -/
theorem setQ_getQ (m : List (Str × List Str)) (w : Str) (hm : WFProc m) :
    setQ m w (getQ m w) = m := by
  obtain ⟨hnd, hne⟩ := hm
  cases hq : getQ m w with
  | nil =>
    rw [setQ, if_pos (by simp)]
    apply filter_of_noKey
    intro p hp hpw
    exact hne p hp (by rw [← getQ_eq_of_mem m p hnd hp hpw, hq])
  | cons a l =>
    rw [setQ, if_neg (by simp), if_pos (any_of_getQ_ne m w (by rw [hq]; simp))]
    exact mapRepl_getQ w m (a :: l) hnd hq

/-! ### The claims -/

/-- C1: No-loss invariant.  For a task whose serialized value `v`
occurs exactly once in a well-formed store (as after its unique
`push_task`), any sequence of `fetch_task`, `complete_task` and
`requeue_orphaned_tasks` operations that neither pushes `v` again nor
acknowledges it keeps its total occurrence count unchanged and keeps
it present in exactly one queue (pending or one worker's processing
queue); a `complete_task` for `v` issued against the queue holding it
removes it (count drops to zero); and once absent it stays absent
under any further operations that do not push it. -/
theorem claim_no_loss (s : QState) (ops : List QOp) (v : Str) (w : Str) (t : Models.Task)
    (hs : s.WF) :
    (ops.all (fun o => !isPushOf v o && !isCompleteOf v o) = true →
      totalCount (applyOps s ops) v = totalCount s v) ∧
    (totalCount s v = 1 → ops.all (fun o => !isPushOf v o && !isCompleteOf v o) = true →
      placesHolding (applyOps s ops) v = 1) ∧
    (t.to_json = v → v ∈ getQ s.processing w → totalCount s v = 1 →
      totalCount (complete_task s w t) v = 0) ∧
    (totalCount s v = 0 → ops.all (fun o => !isPushOf v o) = true →
      totalCount (applyOps s ops) v = 0) := by
  refine ⟨fun h => totalCount_applyOps s ops v hs h, fun h1 h => ?_, fun he hv h1 => ?_,
    fun h0 h => totalCount_zero_applyOps s ops v hs h0 h⟩
  · exact placesHolding_of_totalCount_one _ v
      (by rw [totalCount_applyOps s ops v hs h]; exact h1)
  · have hc := totalCount_complete s w t v hs
    rw [if_pos ⟨he, hv⟩] at hc
    omega

/-- C2: Serialization round-trip.  For every task whose fields are
JSON-representable structures (modelled: any `JsonValue` whose
objects have no duplicate keys, as Python dicts cannot),
deserializing the serialized task yields a task equal in all three
fields. -/
theorem claim_round_trip (t : Models.Task) (fresh : Str) (h : taskNoDup t = true) :
    Models.Task.from_json fresh (Models.Task.to_json t) = some t :=
  from_json_to_json t fresh h

/-- C3: Serialization stability.  A string produced by `to_json`
re-serializes byte-for-byte identically after a parse, so
`complete_task`'s remove-by-value finds the stored element for a task
obtained from `fetch_task`: fetching the task and acknowledging it
restores the worker's processing queue exactly. -/
theorem claim_serialization_stability (t : Models.Task) (fresh : Str) (s2 : QState) (w : Str)
    (h : taskNoDup t = true) :
    (Models.Task.from_json fresh (Models.Task.to_json t)).map Models.Task.to_json
        = some (Models.Task.to_json t) ∧
    (∀ l, s2.pending = l ++ [Models.Task.to_json t] → s2.WF →
      (fetch_task s2 w fresh).1 = .got t ∧
      getQ (complete_task (fetch_task s2 w fresh).2 w t).processing w
        = getQ s2.processing w) := by
  refine ⟨by rw [from_json_to_json t fresh h]; rfl, ?_⟩
  intro l hp hwf
  rw [fetch_task_step s2 w fresh t l hp h]
  have hWF1 : WFProc (setQ s2.processing w
      (Models.Task.to_json t :: getQ s2.processing w)) :=
    WFProc_setQ s2.processing w _ hwf
  refine ⟨rfl, ?_⟩
  show getQ (setQ (setQ s2.processing w (Models.Task.to_json t :: getQ s2.processing w)) w
    ((getQ (setQ s2.processing w (Models.Task.to_json t :: getQ s2.processing w)) w).erase
      (Models.Task.to_json t))) w = getQ s2.processing w
  rw [getQ_setQ_self _ w _ hWF1.1, getQ_setQ_self _ w _ hwf.1, List.erase_cons_head]

/-- C4: The heartbeat loop of worker.py has no exception handler: a
tick whose `set_heartbeat` raises a store error terminates the loop
and no further heartbeat is ever issued (first equation), while
error-free ticks each issue one heartbeat (second equation).  This is
the code-side behavior the claim contradicts. -/
theorem claim_heartbeat_crash (ticks : List Bool) :
    heartbeatRun (false :: ticks) = (0, true) ∧ heartbeatRun [true, true] = (2, false) :=
  ⟨rfl, rfl⟩

/-- C5 (counterexample): for the worker identity `a:b`, whose id
contains the key separator, the enumeration does not return the
identity even though its processing queue is nonempty — extraction
takes only the part after the last colon. -/
theorem claim_busy_workers_cex :
    getQ (QState.mk [] [(['a', ':', 'b'], [['x']])]).processing ['a', ':', 'b'] ≠ [] ∧
    ¬ (['a', ':', 'b'] ∈ get_all_processing_workers (QState.mk [] [(['a', ':', 'b'], [['x']])])) ∧
    extractWorkerId (processing_queue_name ['a', ':', 'b']) = ['b'] := by
  refine ⟨by decide, by decide, by rfl⟩

/-- C5 (amended): provided worker identities contain no colon,
`get_all_processing_workers` returns exactly the identities of the
workers with a nonempty processing queue: extraction then recovers
each identity from its derived key name. -/
theorem claim_busy_workers_amended (s : QState) (hs : s.WF)
    (hkeys : ∀ p ∈ s.processing, ∀ c ∈ p.1, ¬ c = ':') :
    get_all_processing_workers s = s.processing.map Prod.fst ∧
    (∀ w, (∀ c ∈ w, ¬ c = ':') →
      (w ∈ get_all_processing_workers s ↔ getQ s.processing w ≠ [])) := by
  have h1 : ∀ m : List (Str × List Str), (∀ p ∈ m, ∀ c ∈ p.1, ¬ c = ':') →
      (m.map (fun p => processing_queue_name p.1)).map extractWorkerId = m.map Prod.fst := by
    intro m hm
    induction m with
    | nil => rfl
    | cons p m ih =>
      simp only [List.map_cons]
      rw [extract_processing_name p.1 (hm p (by simp)), ih (fun q hq => hm q (by simp [hq]))]
  refine ⟨h1 s.processing hkeys, ?_⟩
  intro w hw
  rw [get_all_processing_workers, h1 s.processing hkeys]
  exact mem_keys_iff_getQ_ne s.processing w hs.2

/-- C6: Acknowledge semantics.  `complete_task` removes exactly one
occurrence of the task's serialized value from the worker's
processing queue, by value; the pending queue and the other workers'
queues are untouched; and when the value is absent the call leaves
the whole store unchanged (a no-op, not an error). -/
theorem claim_acknowledge (s : QState) (w : Str) (t : Models.Task) (hs : s.WF) :
    (complete_task s w t).pending = s.pending ∧
    getQ (complete_task s w t).processing w = (getQ s.processing w).erase t.to_json ∧
    (∀ w2, ¬ w2 = w → getQ (complete_task s w t).processing w2 = getQ s.processing w2) ∧
    (t.to_json ∈ getQ s.processing w →
      (getQ (complete_task s w t).processing w).count t.to_json
        = (getQ s.processing w).count t.to_json - 1) ∧
    (¬ t.to_json ∈ getQ s.processing w → complete_task s w t = s) := by
  refine ⟨rfl, getQ_setQ_self s.processing w _ hs.1,
    fun w2 hne => getQ_setQ_ne s.processing w w2 _ hne, fun hm => ?_, fun hm => ?_⟩
  · show List.count t.to_json (getQ (setQ s.processing w
        ((getQ s.processing w).erase t.to_json)) w) = _
    rw [getQ_setQ_self s.processing w _ hs.1, List.count_erase_self]
  · rw [complete_task, List.erase_of_not_mem hm, setQ_getQ s.processing w hs]

/-- C7 (counterexample): the empty-string entry cannot be
deserialized, yet fetching from a pending queue holding exactly that
entry moves it into the worker's processing queue and returns the
no-task sentinel rather than surfacing an error: the broker tests
the moved entry for truthiness (`... if task_data else None`) before
ever deserializing it, so the unreadable entry is silently
dropped. -/
theorem claim_fetch_contract_cex :
    Models.Task.from_json ['f'] [] = none ∧
    fetch_task (QState.mk [([] : Str)] []) ['w'] ['f']
      = (.noTask, QState.mk [] [(['w'], [([] : Str)])]) :=
  ⟨rfl, rfl⟩

/-- C7 (amended to nonempty entries): with an empty pending queue,
`fetch_task` returns the no-task sentinel and changes nothing (a
timeout is not an error); when a nonempty entry is moved but fails to
deserialize, the error is surfaced as such — not the no-task sentinel
— and the entry has already moved into the worker's processing
queue.  The empty-string entry is the exception established above. -/
theorem claim_fetch_contract_amended (s : QState) (w fresh v : Str) :
    (s.pending = [] → fetch_task s w fresh = (.noTask, s)) ∧
    (s.pending.getLast? = some v → ¬ v = [] → Models.Task.from_json fresh v = none →
      fetch_task s w fresh = (.fetchError,
        { pending := s.pending.dropLast,
          processing := setQ s.processing w (v :: getQ s.processing w) })) := by
  constructor
  · intro hp
    rw [fetch_task, blmove, hp]
    rfl
  · intro hlast hne hfj
    rw [fetch_task, blmove, hlast]
    show ((if v = [] then FetchResult.noTask
        else match Models.Task.from_json fresh v with
          | some t => FetchResult.got t
          | none => FetchResult.fetchError),
        ({ pending := s.pending.dropLast,
           processing := setQ s.processing w (v :: getQ s.processing w) } : QState)) = _
    rw [if_neg hne, hfj]

/-- C8: FIFO order.  Pushing a list of tasks onto an empty pending
queue and then fetching as many times (by any workers) returns the
tasks in enqueue order: `push_task` inserts at the left end and the
fetch move removes from the right end. -/
theorem claim_fifo_order (s : QState) (ts : List Models.Task) (ws : List (Str × Str))
    (hp : s.pending = []) (hlen : ws.length = ts.length)
    (hnd : ∀ t ∈ ts, taskNoDup t = true) :
    (fetchSeq (pushSeq s ts) ws).1 = ts.map FetchResult.got := by
  apply fetchSeq_spec ts ws _ ?_ hlen hnd
  rw [(pushSeq_pending s ts).1, hp, List.append_nil]

/-- C9: Idempotent recovery.  Recovering an already-empty processing
queue returns 0 and leaves the store exactly as it was; and an
immediate second recovery of the same worker returns 0 and moves
nothing. -/
theorem claim_idempotent_recovery (s : QState) (w : Str) (hs : s.WF) :
    (getQ s.processing w = [] → requeue_orphaned_tasks s w = (0, s)) ∧
    requeue_orphaned_tasks (requeue_orphaned_tasks s w).2 w
      = (0, (requeue_orphaned_tasks s w).2) := by
  have hpart : ∀ s2 : QState, s2.WF → getQ s2.processing w = [] →
      requeue_orphaned_tasks s2 w = (0, s2) := by
    intro s2 hs2 hq
    rw [requeue_spec, hq,
      show setQ s2.processing w [] = s2.processing from by
        rw [← hq, setQ_getQ s2.processing w hs2]]
    rfl
  have hWF1 : (requeue_orphaned_tasks s w).2.WF := by
    rw [requeue_spec]
    exact WFProc_setQ s.processing w [] hs
  refine ⟨hpart s hs, hpart _ hWF1 ?_⟩
  rw [requeue_spec]
  exact getQ_setQ_self s.processing w [] hs.1

/-- C10: Recovery preserves claim order.  If worker `w` claimed tasks
`ts` in order (its processing queue holds their serialized values
newest-first) and `us` are the tasks already pending (oldest last in
retrieval order), then recovery moves exactly `ts.length` entries and
subsequent fetches return first all of `us` in order and then `ts`
in the worker's original claim order. -/
theorem claim_recovery_order (s : QState) (w : Str) (us ts : List Models.Task)
    (ws : List (Str × Str))
    (hproc : getQ s.processing w = (ts.map Models.Task.to_json).reverse)
    (hpend : s.pending = (us.map Models.Task.to_json).reverse)
    (hlen : ws.length = us.length + ts.length)
    (hnd : ∀ t ∈ us ++ ts, taskNoDup t = true) :
    (requeue_orphaned_tasks s w).1 = ts.length ∧
    (fetchSeq (requeue_orphaned_tasks s w).2 ws).1 = (us ++ ts).map FetchResult.got := by
  rw [requeue_spec]
  refine ⟨by rw [hproc]; simp, ?_⟩
  apply fetchSeq_spec (us ++ ts) ws _ ?_ (by simpa using hlen) hnd
  show getQ s.processing w ++ s.pending = ((us ++ ts).map Models.Task.to_json).reverse
  rw [hproc, hpend, List.map_append, List.reverse_append]

/-! ### Witnesses: the claims at concrete inputs -/

theorem claim_no_loss_witness :
    placesHolding (applyOps (QState.mk [Models.Task.to_json ⟨.num 1, .str ['i'], .str ['p']⟩] [])
        [QOp.fetch ['w'] ['f'], QOp.requeue ['w']])
      (Models.Task.to_json ⟨.num 1, .str ['i'], .str ['p']⟩) = 1 :=
  (claim_no_loss (QState.mk [Models.Task.to_json ⟨.num 1, .str ['i'], .str ['p']⟩] [])
    [QOp.fetch ['w'] ['f'], QOp.requeue ['w']]
    (Models.Task.to_json ⟨.num 1, .str ['i'], .str ['p']⟩) ['w'] ⟨.num 1, .str ['i'], .str ['p']⟩
    ⟨by decide, by decide⟩).2.1 (by rfl) (by rfl)

theorem claim_round_trip_witness :
    taskNoDup ⟨JsonValue.obj [(['a'], .num 1)], .str ['i', 'd'], .str ['p']⟩ = true ∧
    Models.Task.from_json ['f']
        (Models.Task.to_json ⟨JsonValue.obj [(['a'], .num 1)], .str ['i', 'd'], .str ['p']⟩)
      = some ⟨JsonValue.obj [(['a'], .num 1)], .str ['i', 'd'], .str ['p']⟩ :=
  ⟨rfl, claim_round_trip ⟨JsonValue.obj [(['a'], .num 1)], .str ['i', 'd'], .str ['p']⟩ ['f'] rfl⟩

theorem claim_serialization_stability_witness :
    (Models.Task.from_json ['f']
        (Models.Task.to_json ⟨JsonValue.obj [(['a'], .num 1)], .str ['i', 'd'], .str ['p']⟩)).map
      Models.Task.to_json
      = some (Models.Task.to_json ⟨JsonValue.obj [(['a'], .num 1)], .str ['i', 'd'], .str ['p']⟩) :=
  (claim_serialization_stability ⟨JsonValue.obj [(['a'], .num 1)], .str ['i', 'd'], .str ['p']⟩ ['f']
    (QState.mk [] []) ['w'] rfl).1

theorem claim_busy_workers_amended_witness :
    get_all_processing_workers (QState.mk [] [(['w'], [['x']])])
      = ([(['w'], [['x']])] : List (Str × List Str)).map Prod.fst :=
  (claim_busy_workers_amended (QState.mk [] [(['w'], [['x']])])
    ⟨by decide, by decide⟩ (by decide)).1

theorem claim_acknowledge_witness :
    getQ (complete_task (QState.mk [] [(['w'], [['x'], ['y']])]) ['w']
        ⟨.num 1, .str ['i'], .str ['p']⟩).processing ['w']
      = (getQ (QState.mk [] [(['w'], [['x'], ['y']])]).processing ['w']).erase
          (Models.Task.to_json ⟨.num 1, .str ['i'], .str ['p']⟩) :=
  (claim_acknowledge (QState.mk [] [(['w'], [['x'], ['y']])]) ['w'] ⟨.num 1, .str ['i'], .str ['p']⟩
    ⟨by decide, by decide⟩).2.1

theorem claim_fetch_contract_amended_witness :
    fetch_task (QState.mk [['o', 'o', 'p', 's']] []) ['w'] ['f'] = (.fetchError,
      { pending := ([['o', 'o', 'p', 's']] : List Str).dropLast,
        processing := setQ ([] : List (Str × List Str)) ['w']
          (['o', 'o', 'p', 's'] :: getQ ([] : List (Str × List Str)) ['w']) }) :=
  (claim_fetch_contract_amended (QState.mk [['o', 'o', 'p', 's']] []) ['w'] ['f']
    ['o', 'o', 'p', 's']).2 (by rfl) (by decide) (by rfl)

theorem claim_fifo_order_witness :
    (fetchSeq (pushSeq (QState.mk [] [])
        [⟨.num 1, .str ['a'], .str ['p']⟩, ⟨.num 2, .str ['b'], .str ['p']⟩])
      [(['w'], ['f']), (['w'], ['g'])]).1
      = ([⟨.num 1, .str ['a'], .str ['p']⟩, ⟨.num 2, .str ['b'], .str ['p']⟩] : List Models.Task).map
          FetchResult.got :=
  claim_fifo_order (QState.mk [] []) [⟨.num 1, .str ['a'], .str ['p']⟩, ⟨.num 2, .str ['b'], .str ['p']⟩]
    [(['w'], ['f']), (['w'], ['g'])] rfl rfl (by decide)

theorem claim_idempotent_recovery_witness :
    requeue_orphaned_tasks (QState.mk [['x']] []) ['w'] = (0, QState.mk [['x']] []) :=
  (claim_idempotent_recovery (QState.mk [['x']] []) ['w'] ⟨by decide, by decide⟩).1 (by decide)

theorem claim_recovery_order_witness :
    (fetchSeq (requeue_orphaned_tasks (QState.mk
        [Models.Task.to_json ⟨.num 1, .str ['a'], .str ['p']⟩]
        [(['w'], [Models.Task.to_json ⟨.num 2, .str ['b'], .str ['p']⟩])]) ['w']).2
      [(['w'], ['f']), (['w'], ['g'])]).1
      = (([⟨.num 1, .str ['a'], .str ['p']⟩] ++ [⟨.num 2, .str ['b'], .str ['p']⟩]) : List Models.Task).map
          FetchResult.got :=
  (claim_recovery_order (QState.mk
      [Models.Task.to_json ⟨.num 1, .str ['a'], .str ['p']⟩]
      [(['w'], [Models.Task.to_json ⟨.num 2, .str ['b'], .str ['p']⟩])]) ['w']
    [⟨.num 1, .str ['a'], .str ['p']⟩] [⟨.num 2, .str ['b'], .str ['p']⟩]
    [(['w'], ['f']), (['w'], ['g'])]
    (by rfl) (by rfl) rfl (by decide)).2
